import Mathlib

/-!
Verification of the core of the `the-king-of-the-three-hundred` path tracer.

The repository ships two source files: `src/bvh.rs` (bounding-volume-hierarchy
construction and nearest-hit queries) and `src/main.rs` (the row-parallel render
scheduler and the recursive radiance estimator `ray_color`).  Those two files
are embedded here directly.  The collaborators they consume (`aabb.rs`,
`hittable.rs`, `pdf.rs`, `vec3.rs`, ...) are not part of the sources, so their
operations are modelled from the specification where needed; each such
definition carries a doc comment starting with `Modelled from the spec:`.

Machine scalars (`f32`) are modelled as exact rationals, so arithmetic carries
no rounding; `i32`/`usize` become `Int`/`Nat`.  Panics and other fatal paths
become `Option` results (`none` = the process aborts and no value is produced).
-/

/-- Model of `Vec3` from `vec3.rs` (absent from the sources): three scalar
components.  `f32` components are modelled as rationals. -/
structure Vec3 where
  x : ℚ
  y : ℚ
  z : ℚ
deriving DecidableEq, Repr

/-- Component access, modelling `v[axis]` indexing used by `bvh.rs`. -/
def Vec3.get (v : Vec3) : ℕ → ℚ
  | 0 => v.x
  | 1 => v.y
  | _ => v.z

/-- Componentwise addition. -/
def Vec3.add (a b : Vec3) : Vec3 := ⟨a.x + b.x, a.y + b.y, a.z + b.z⟩

/-- Componentwise (Hadamard) product, the `Vec3 * Vec3` of the source. -/
def Vec3.hmul (a b : Vec3) : Vec3 := ⟨a.x * b.x, a.y * b.y, a.z * b.z⟩

/-- Scaling by a scalar, the `Vec3 * f32` of the source. -/
def Vec3.smul (a : Vec3) (s : ℚ) : Vec3 := ⟨a.x * s, a.y * s, a.z * s⟩

/-- Division by a scalar, the `Vec3 / f32` of the source. -/
def Vec3.sdiv (a : Vec3) (s : ℚ) : Vec3 := ⟨a.x / s, a.y / s, a.z / s⟩

/-- The zero vector, `Vec3::new_empty()`. -/
def Vec3.zero : Vec3 := ⟨0, 0, 0⟩

instance : Add Vec3 := ⟨Vec3.add⟩

instance : Mul Vec3 := ⟨Vec3.hmul⟩

instance : HMul Vec3 ℚ Vec3 := ⟨Vec3.smul⟩

instance : HDiv Vec3 ℚ Vec3 := ⟨Vec3.sdiv⟩

/-- Colors are vectors, as in the source (`type Color = Vec3` style alias). -/
abbrev Color := Vec3

/-- A color is non-negative when every channel is non-negative. -/
def Vec3.nonneg (v : Vec3) : Prop := 0 ≤ v.x ∧ 0 ≤ v.y ∧ 0 ≤ v.z

instance (v : Vec3) : Decidable v.nonneg := by unfold Vec3.nonneg; infer_instance

/-- Model of `Ray` from `ray.rs` (absent): origin, direction and a time scalar,
immutable once constructed. -/
structure Ray where
  orig : Vec3
  dir : Vec3
  time : ℚ
deriving DecidableEq, Repr

/-- The point reached at parameter `t`, the `origin + t * direction` of the
spec data model. -/
def Ray.at (r : Ray) (t : ℚ) : Vec3 :=
  ⟨r.orig.x + t * r.dir.x, r.orig.y + t * r.dir.y, r.orig.z + t * r.dir.z⟩

/-- Modelled from the spec: `AABB` from `aabb.rs` (absent), a min corner and a
max corner in 3D. -/
structure AABB where
  min : Vec3
  max : Vec3
deriving DecidableEq, Repr

/-- Membership of a point in a (closed) box. -/
def AABB.memBox (b : AABB) (p : Vec3) : Prop :=
  b.min.x ≤ p.x ∧ p.x ≤ b.max.x ∧
  b.min.y ≤ p.y ∧ p.y ≤ b.max.y ∧
  b.min.z ≤ p.z ∧ p.z ≤ b.max.z

instance (b : AABB) (p : Vec3) : Decidable (b.memBox p) := by
  unfold AABB.memBox; infer_instance

/-- One axis of the slab test: clip the running parameter interval by the
interval of parameters at which the ray is inside the `[mn, mx]` slab.  A `none`
accumulator (already empty) stays `none`; a zero direction component keeps the
interval when the origin lies inside the slab and empties it otherwise. -/
def clipSlab (mn mx o d : ℚ) : Option (ℚ × ℚ) → Option (ℚ × ℚ)
  | none => none
  | some (lo, hi) =>
    if d = 0 then
      if mn ≤ o ∧ o ≤ mx then some (lo, hi) else none
    else
      let ta := (mn - o) / d
      let tb := (mx - o) / d
      some (max lo (min ta tb), min hi (max ta tb))

/-- Modelled from the spec: the slab-test intersection of `aabb.rs` (absent),
restricted to `[t_min, t_max]`: intersect the per-axis slab intervals with
`[t_min, t_max]` and report whether the result is non-empty. -/
def AABB.hit (b : AABB) (r : Ray) (tmin tmax : ℚ) : Bool :=
  match clipSlab b.min.z b.max.z r.orig.z r.dir.z
      (clipSlab b.min.y b.max.y r.orig.y r.dir.y
        (clipSlab b.min.x b.max.x r.orig.x r.dir.x (some (tmin, tmax)))) with
  | none => false
  | some (lo, hi) => decide (lo ≤ hi)

/-- Modelled from the spec: `AABB::surrounding_box` from `aabb.rs` (absent),
the smallest box containing two boxes (componentwise min of mins, max of
maxes). -/
def AABB.surrounding_box (a b : AABB) : AABB :=
  ⟨⟨Min.min a.min.x b.min.x, Min.min a.min.y b.min.y, Min.min a.min.z b.min.z⟩,
   ⟨Max.max a.max.x b.max.x, Max.max a.max.y b.max.y, Max.max a.max.z b.max.z⟩⟩

/-- Box containment: `big` contains `small` componentwise. -/
def AABB.contains (big small : AABB) : Prop :=
  big.min.x ≤ small.min.x ∧ big.min.y ≤ small.min.y ∧ big.min.z ≤ small.min.z ∧
  small.max.x ≤ big.max.x ∧ small.max.y ≤ big.max.y ∧ small.max.z ≤ big.max.z

instance (a b : AABB) : Decidable (a.contains b) := by
  unfold AABB.contains; infer_instance

/-- Model of `HitRecord` from `hittable.rs` (absent from the sources): hit
point, surface normal, parametric distance `t`, a material reference (modelled
as an index into the material environment) and the front-face flag. -/
structure HitRecord where
  p : Vec3
  normal : Vec3
  t : ℚ
  matId : ℕ
  front_face : Bool
deriving DecidableEq, Repr

/-- Modelled from the spec: the probability-density interface of `pdf.rs`
(absent): produce a direction sample and evaluate the density of a direction.
Collaborators are deterministic here, matching the claims hypotheses of
deterministic collaborators. -/
structure PDFImpl where
  generate : Vec3
  value : Vec3 → ℚ

/-- Modelled from the spec: `MixturePDF` from `pdf.rs` (absent).  The generator
follows a fair coin choosing one of the two sub-generators (the coin is
supplied by the deterministic collaborator environment); the evaluated density
is always the arithmetic mean of the two sub-densities. -/
def mixturePDF (p q : PDFImpl) (coin : Bool) : PDFImpl :=
  { generate := if coin then p.generate else q.generate
    value := fun d => (p.value d + q.value d) / 2 }

/-- Modelled from the spec: `ReflectionRecord` from `material.rs` (absent), a
tagged union of a perfect specular bounce and a density-described diffuse
scatter. -/
inductive ReflectionRecord where
  | Specular (specular_ray : Ray) (attenuation : Color)
  | Scatter (pdf : PDFImpl) (attenuation : Color)

/-- Model of the `Material` interface from `material.rs` (absent): emitted
radiance, the scattering outcome and the scattering-PDF weight, all pure
functions of their inputs per the collaborator contract. -/
structure Material where
  emitted : Ray → HitRecord → Color
  scatter : Ray → HitRecord → Option ReflectionRecord
  scattering_pdf : Ray → HitRecord → Ray → ℚ

/-- Model of a `dyn Hittable` trait object from `hittable.rs` (absent): an
intersection test over a t-range and a bounding box for a time interval, the
two operations the BVH consumes. -/
structure Object where
  hit : Ray → ℚ → ℚ → Option HitRecord
  bbox : ℚ → ℚ → Option AABB

/-- The BVH tree of `bvh.rs`: the Rust `BVH` struct (a `BVHNode` tree plus a
cached `bbox`) flattened into one inductive, a `Leaf` wrapping one object and a
`Branch` holding two subtrees, each constructor carrying the cached box. -/
inductive BVH where
  | leaf (obj : Object) (bbox : AABB)
  | branch (left right : BVH) (bbox : AABB)

/-- The cached bounding box of a node (`self.bbox`). -/
def BVH.bbox : BVH → AABB
  | .leaf _ bx => bx
  | .branch _ _ bx => bx

/-- Embedding of `impl Hittable for BVH :: hit` from `bvh.rs`: test the
cached box first, delegate at a leaf, and at a branch query `left` with the
incoming `t_max`, shrink `t_max` to the left hit distance if any, query
`right`, and prefer the right result. -/
def BVH.hit : BVH → Ray → ℚ → ℚ → Option HitRecord
  | .leaf o bx, r, t_min, t_max =>
    if bx.hit r t_min t_max then o.hit r t_min t_max else none
  | .branch lt rt bx, r, t_min, t_max =>
    if bx.hit r t_min t_max then
      let left := lt.hit r t_min t_max
      let t_max2 := match left with
        | some l => l.t
        | none => t_max
      let right := rt.hit r t_min t_max2
      match right with
      | some _ => right
      | none => left
    else none

/-- The objects stored at the leaves of a tree, in left-to-right order. -/
def BVH.toList : BVH → List Object
  | .leaf o _ => [o]
  | .branch lt rt _ => lt.toList ++ rt.toList

/-- Every subtree of a tree, the node itself included. -/
def BVH.descendants : BVH → List BVH
  | .leaf o bx => [.leaf o bx]
  | .branch lt rt bx => .branch lt rt bx :: (lt.descendants ++ rt.descendants)

/-- The exact value of `f32::MAX`, the seed of the `axis_range` fold. -/
def f32MAX : ℚ := 2 ^ 128 - 2 ^ 104

/-- Embedding of the inner `axis_range` function of `BVH::new`: fold the
boxes of the objects (skipping objects without a box, as the source fold
does), seeded with `(f32::MAX, f32::MIN)`, and return `max - min`. -/
def axis_range (hitable : List Object) (time0 time1 : ℚ) (axis : ℕ) : ℚ :=
  let p := hitable.foldl
    (fun (acc : ℚ × ℚ) o =>
      match o.bbox time0 time1 with
      | some aabb => (Min.min acc.1 (aabb.min.get axis), Max.max acc.2 (aabb.max.get axis))
      | none => acc)
    (f32MAX, -f32MAX)
  p.2 - p.1

/-- The axis choice of `BVH::new`: the three `(axis, range)` pairs are sorted
by descending range and the first axis is taken.  On three elements the
sort keeps the first pair with the maximal range, so the choice is the
smallest axis index attaining the maximal range; the nested conditionals below
compute exactly that head. -/
def largestAxis (hitable : List Object) (time0 time1 : ℚ) : ℕ :=
  let r0 := axis_range hitable time0 time1 0
  let r1 := axis_range hitable time0 time1 1
  let r2 := axis_range hitable time0 time1 2
  if r0 < r1 then (if r1 < r2 then 2 else 1)
  else (if r0 < r2 then 2 else 0)

/-- The sort key of the inner `box_compare` function of `BVH::new`: the sum of
the box min and max coordinates on the chosen axis.  The source comparator
panics when an object has no box; `BVH::new` is modelled to abort (return
`none`) before sorting in that case, so the default `0` of this total
function is never observed. -/
def box_compare_key (time0 time1 : ℚ) (axis : ℕ) (o : Object) : ℚ :=
  match o.bbox time0 time1 with
  | some b => b.min.get axis + b.max.get axis
  | none => 0

/-- The comparator relation induced by `box_compare`. -/
def boxCompareLe (time0 time1 : ℚ) (axis : ℕ) (a b : Object) : Prop :=
  box_compare_key time0 time1 axis a ≤ box_compare_key time0 time1 axis b

instance (time0 time1 : ℚ) (axis : ℕ) : DecidableRel (boxCompareLe time0 time1 axis) :=
  fun a b => by unfold boxCompareLe; infer_instance

/-- The strict version of the comparator key order, used below to build a
tie-reversing comparator-conforming sort. -/
def boxCompareLt (time0 time1 : ℚ) (axis : ℕ) (a b : Object) : Prop :=
  box_compare_key time0 time1 axis a < box_compare_key time0 time1 axis b

instance (time0 time1 : ℚ) (axis : ℕ) : DecidableRel (boxCompareLt time0 time1 axis) :=
  fun a b => by unfold boxCompareLt; infer_instance

/-- Embedding of `BVH::new` from `bvh.rs`, with a fuel argument making the
well-founded recursion structural (any fuel at least the list length gives the
same result), and with the behavior of `sort_unstable_by` made explicit:
Rust guarantees only that the sorted slice is a permutation of the input
ordered by the comparator, the relative order of elements with tied
`box_compare` keys being unspecified, so `sortImpl` (given the current object
set and the chosen axis) supplies one admissible sort behavior, the way `sel`
supplies the behavior of the random light chooser.  The source panics on an
empty list and whenever an object has no bounding box (inside the sort
comparator for two or more objects, at the leaf box lookup for one); both
aborts are modelled as `none`.  For two or more objects it picks the
largest-extent axis, sorts by the `box_compare` key, splits at `len / 2` (the
first `len / 2` objects feed the left subtree, the rest the right one) and
wraps the recursively built children in a branch whose box is the surrounding
box of the children boxes. -/
def buildBVHWith (sortImpl : List Object → ℕ → List Object) (time0 time1 : ℚ) :
    ℕ → List Object → Option BVH
  | _, [] => none
  | _, [o] => (o.bbox time0 time1).map (fun bx => BVH.leaf o bx)
  | 0, _ :: _ :: _ => none
  | fuel + 1, a :: b :: l =>
    let hitable := a :: b :: l
    if hitable.all (fun o => (o.bbox time0 time1).isSome) then
      let axis := largestAxis hitable time0 time1
      let sorted := sortImpl hitable axis
      let len := hitable.length
      match buildBVHWith sortImpl time0 time1 fuel (sorted.take (len / 2)),
            buildBVHWith sortImpl time0 time1 fuel (sorted.drop (len / 2)) with
      | some left, some right =>
        some (BVH.branch left right (AABB.surrounding_box left.bbox right.bbox))
      | _, _ => none
    else none

/-- The construction with one concrete admissible sort behavior plugged in, a
stable insertion sort by the `box_compare` key (on distinct keys every
conforming behavior agrees with it). -/
def buildBVH (time0 time1 : ℚ) : ℕ → List Object → Option BVH :=
  buildBVHWith (fun l axis => l.insertionSort (boxCompareLe time0 time1 axis)) time0 time1

/-- A second admissible sort behavior: insertion sort by the strict key
order.  It also produces a permutation ordered by the comparator, agrees with
the stable sort on distinct keys, and reverses the arrival order of tied
keys, as `sort_unstable_by` is free to do. -/
def tieRevSort (time0 time1 : ℚ) (l : List Object) (axis : ℕ) : List Object :=
  l.insertionSort (boxCompareLt time0 time1 axis)

/-- `BVH::new`: run the construction with just enough fuel. -/
def BVH.new (hitable : List Object) (time0 time1 : ℚ) : Option BVH :=
  buildBVH time0 time1 hitable.length hitable

/-- The structural box invariant of a constructed tree: a leaf caches the box
of its object, a branch caches the surrounding box of its children boxes. -/
def BVH.WellBoxed (time0 time1 : ℚ) : BVH → Prop
  | .leaf o bx => o.bbox time0 time1 = some bx
  | .branch lt rt bx =>
    bx = AABB.surrounding_box lt.bbox rt.bbox ∧
    lt.WellBoxed time0 time1 ∧ rt.WellBoxed time0 time1

/-- The collaborator contract of `hittable.rs` objects consumed by the BVH
(spec section 6): deterministic intersection whose reported distance lies
strictly inside the queried range, whose hit point lies inside the reported
bounding box, and whose result behaves like the nearest intersection when the
upper bound of the range moves: shrinking the bound past the hit keeps it,
widening the bound keeps a hit present, and shrinking the bound never
produces a closer hit. -/
structure LawfulObject (o : Object) (time0 time1 : ℚ) : Prop where
  bounded : (o.bbox time0 time1).isSome
  inRange : ∀ r t_min t_max h, o.hit r t_min t_max = some h →
    t_min < h.t ∧ h.t < t_max
  inBox : ∀ r t_min t_max h b, o.hit r t_min t_max = some h →
    o.bbox time0 time1 = some b → b.memBox (r.at h.t)
  shrink : ∀ r t_min t_max t_max2 h, o.hit r t_min t_max = some h →
    h.t < t_max2 → t_max2 ≤ t_max → o.hit r t_min t_max2 = some h
  some_mono : ∀ r t_min t_max t_max2, t_max2 ≤ t_max →
    (o.hit r t_min t_max2).isSome → (o.hit r t_min t_max).isSome
  min_t : ∀ r t_min t_max t_max2 h h2, t_max2 ≤ t_max →
    o.hit r t_min t_max = some h → o.hit r t_min t_max2 = some h2 → h.t ≤ h2.t

/-- The minimum of a list of rationals, `none` on the empty list. -/
def listMinQ : List ℚ → Option ℚ
  | [] => none
  | x :: xs =>
    match listMinQ xs with
    | none => some x
    | some m => some (Min.min x m)

/-- The reference result of the claims: intersect the ray against every object
of the list individually and take the minimum parametric distance inside the
range. -/
def closestT (l : List Object) (r : Ray) (t_min t_max : ℚ) : Option ℚ :=
  listMinQ (l.filterMap (fun o => (o.hit r t_min t_max).map HitRecord.t))

/-- The collaborator environment of `ray_color` in `main.rs`: the material
table (a `dyn Material` reference becomes an index into it), the scene query
(`world.hit(ray, 0.001, INFINITY)` is modelled with its lower bound explicit
and the unbounded upper bound internal to the collaborator), the two density
constructors of `pdf.rs` and the mixture coin, all deterministic, matching the
deterministic-collaborator hypothesis of the claims. -/
structure Env where
  mats : ℕ → Material
  worldHit : Ray → ℚ → Option HitRecord
  cosinePDF : Vec3 → PDFImpl
  hittablePDF : Vec3 → Object → PDFImpl
  coin : Bool

/-- The light-selection and density construction of the `Scatter` branch of
`ray_color` (`main.rs`, lines 110-123), factored out verbatim: a single light
is taken directly (`lights.first()`), otherwise one is drawn by the random
chooser (`lights.objects.choose(&mut rng)`, abstracted as `sel`); a chosen
light yields a 50/50 mixture of the light-directed density and the material
density, no light yields the cosine density around the normal. -/
def lightChoicePDF (env : Env) (sel : List Object → Option Object)
    (lights : List Object) (hitP hitNormal : Vec3)
    (reflection_cosine_pdf : PDFImpl) : PDFImpl :=
  let light_obj_pdf := if lights.length = 1 then lights.head? else sel lights
  match light_obj_pdf with
  | some hittable => mixturePDF (env.hittablePDF hitP hittable) reflection_cosine_pdf env.coin
  | none => env.cosinePDF hitNormal

/-- Embedding of `ray_color` from `main.rs` on a natural-number fuel equal to
`depth.toNat`: depth at most zero returns black; a miss returns the
background; a hit evaluates the emitted radiance and the scattering outcome —
absorption returns the emission, a specular bounce recurses through the
specular ray, and a diffuse scatter samples a direction from the chosen
density, forms the scattered ray inheriting the incoming time, and returns
the divided Monte Carlo estimator. -/
def rayColorAux (env : Env) (sel : List Object → Option Object)
    (background : Color) (lights : List Object) : ℕ → Ray → Color
  | 0, _ => Vec3.zero
  | fuel + 1, ray =>
    match env.worldHit ray (1 / 1000) with
    | none => background
    | some hit =>
      let mat := env.mats hit.matId
      let emitted := mat.emitted ray hit
      match mat.scatter ray hit with
      | none => emitted
      | some (.Specular specular_ray attenuation) =>
        attenuation * rayColorAux env sel background lights fuel specular_ray
      | some (.Scatter reflection_cosine_pdf attenuation) =>
        let pdf := lightChoicePDF env sel lights hit.p hit.normal reflection_cosine_pdf
        let scattered := Ray.mk hit.p pdf.generate ray.time
        let pdf_val := pdf.value scattered.dir
        emitted + attenuation * mat.scattering_pdf ray hit scattered *
          rayColorAux env sel background lights fuel scattered / pdf_val

/-- `ray_color` with the `i32` depth of the source: the guard `depth <= 0`
and the `depth - 1` recursion are captured by recursing on `depth.toNat`. -/
def ray_color (env : Env) (sel : List Object → Option Object) (ray : Ray)
    (background : Color) (lights : List Object) (depth : ℤ) : Color :=
  rayColorAux env sel background lights depth.toNat ray

/-- The contract of `rand` slice choosing used for `lights.objects.choose`:
choosing from an empty slice yields nothing, a chosen element is a member,
and a non-empty slice always yields an element. -/
structure LawfulChoose (sel : List Object → Option Object) : Prop where
  empty_none : sel [] = none
  mem : ∀ l x, sel l = some x → x ∈ l
  nonempty_some : ∀ l, l ≠ [] → (sel l).isSome

/-- The non-negativity contracts of the collaborators (spec section 6): the
background and all emitted radiances and attenuations are non-negative
colors, and every density evaluation and scattering-PDF weight is a
non-negative scalar. -/
structure NonNegEnv (env : Env) (background : Color) : Prop where
  background_nn : background.nonneg
  emitted_nn : ∀ i r h, ((env.mats i).emitted r h).nonneg
  specular_att_nn : ∀ i r h sray att,
    (env.mats i).scatter r h = some (.Specular sray att) → att.nonneg
  scatter_att_nn : ∀ i r h p att,
    (env.mats i).scatter r h = some (.Scatter p att) → att.nonneg
  scatter_pdf_nn : ∀ i r h p att d,
    (env.mats i).scatter r h = some (.Scatter p att) → 0 ≤ p.value d
  spdf_nn : ∀ i r h s, 0 ≤ (env.mats i).scattering_pdf r h s
  cosine_nn : ∀ n d, 0 ≤ (env.cosinePDF n).value d
  hittable_nn : ∀ p o d, 0 ≤ (env.hittablePDF p o).value d

/-- The render configuration of `main.rs`: the image dimensions, sample count
and maximum depth (compile-time constants in the source, parameters here), the
two Halton sequences already collected (`hx`, `hy`), the camera, the scene
collaborators and the final per-pixel transform `Vec3::calc_color` (from
`vec3.rs`, absent). -/
structure RenderCfg where
  nx : ℕ
  ny : ℕ
  samples_per_pixel : ℕ
  max_depth : ℤ
  hx : ℕ → ℚ
  hy : ℕ → ℚ
  get_ray : ℚ → ℚ → Ray
  background : Color
  env : Env
  sel : List Object → Option Object
  lights : List Object

  calc_color : Color → ℕ → Color

/-- The per-pixel loop of `main` (`main.rs`, lines 66-77): accumulate
`samples_per_pixel` estimator calls at Halton-jittered screen coordinates and
apply `Vec3::calc_color` to the sum. -/
def renderPixel (cfg : RenderCfg) (x y : ℕ) : Color :=
  let pixel_color := (List.range cfg.samples_per_pixel).foldl
    (fun pixel_color i =>
      let u := ((x : ℚ) + cfg.hx i) / ((cfg.nx - 1 : ℕ) : ℚ)
      let v := ((y : ℚ) + cfg.hy i) / ((cfg.ny - 1 : ℕ) : ℚ)
      pixel_color + ray_color cfg.env cfg.sel (cfg.get_ray u v) cfg.background
        cfg.lights cfg.max_depth)
    Vec3.zero
  cfg.calc_color pixel_color cfg.samples_per_pixel

/-- One row of the framebuffer, the work item of the parallel scheduler. -/
def renderRow (cfg : RenderCfg) (y : ℕ) : List Color :=
  (List.range cfg.nx).map (fun x => renderPixel cfg x y)

/-- The row-parallel schedule of `main`: the rows execute in some order
(`rayon` par_iter makes that order arbitrary), each writing only its own row
of the shared framebuffer; the framebuffer is modelled as a map from row index
to row content, `none` for a row not yet written. -/
def runSchedule (cfg : RenderCfg) (order : List ℕ) : ℕ → Option (List Color) :=
  order.foldl
    (fun image y => fun yq => if yq = y then some (renderRow cfg y) else image yq)
    (fun _ => none)

/-- The output stage of `main`: rows are emitted top row first (the source
iterates `(0..img.len()).rev()`), regardless of the processing order. -/
def outputImage (cfg : RenderCfg) (order : List ℕ) : List (Option (List Color)) :=
  ((List.range cfg.ny).reverse).map (runSchedule cfg order)

/-- A flat test primitive used for concrete evaluations: it intersects every
ray at the fixed parameter `tc`, provided the reached point lies inside its
box and `tc` lies strictly inside the queried range.  It satisfies the
`LawfulObject` collaborator contract. -/
def planeObj (tc : ℚ) (nrm : Vec3) (box : AABB) (mid : ℕ) : Object :=
  { hit := fun r t_min t_max =>
      if t_min < tc ∧ tc < t_max ∧ box.memBox (r.at tc) then
        some ⟨r.at tc, nrm, tc, mid, true⟩
      else none
    bbox := fun _ _ => some box }

/-- Concrete test box around `x ∈ [1, 3]`. -/
def boxNear : AABB := ⟨⟨1, -1, -1⟩, ⟨3, 1, 1⟩⟩

/-- Concrete test box around `x ∈ [4, 6]`. -/
def boxFar : AABB := ⟨⟨4, -1, -1⟩, ⟨6, 1, 1⟩⟩

/-- Test object hit at `t = 2`. -/
def objNear : Object := planeObj 2 ⟨-1, 0, 0⟩ boxNear 0

/-- Test object hit at `t = 5`. -/
def objFar : Object := planeObj 5 ⟨-1, 0, 0⟩ boxFar 1

/-- A two-object test scene, deliberately listed far-first. -/
def sceneW : List Object := [objFar, objNear]

/-- A test ray marching along the positive x axis. -/
def rayW : Ray := ⟨⟨0, 0, 0⟩, ⟨1, 0, 0⟩, 0⟩

/-- A concrete branch node over the two test leaves. -/
def branchW : BVH :=
  BVH.branch (BVH.leaf objNear boxNear) (BVH.leaf objFar boxFar)
    (AABB.surrounding_box boxNear boxFar)

/-- A material that only emits, for concrete integrator runs. -/
def matEmitW : Material :=
  { emitted := fun _ _ => ⟨1, 1/2, 0⟩
    scatter := fun _ _ => none
    scattering_pdf := fun _ _ _ => 0 }

/-- A constant unit density, for concrete integrator runs. -/
def pdfW : PDFImpl := ⟨⟨0, 0, 1⟩, fun _ => 1⟩

/-- A material that always scatters with the constant density. -/
def matScatterW : Material :=
  { emitted := fun _ _ => Vec3.zero
    scatter := fun _ _ => some (.Scatter pdfW ⟨1, 1, 1⟩)
    scattering_pdf := fun _ _ _ => 1 }

/-- A concrete hit record for integrator runs. -/
def hitW : HitRecord := ⟨⟨0, 0, 0⟩, ⟨0, 1, 0⟩, 1, 0, true⟩

/-- An environment in which every ray misses the scene. -/
def envMissW : Env :=
  { mats := fun _ => matEmitW
    worldHit := fun _ _ => none
    cosinePDF := fun n => ⟨n, fun _ => 1⟩
    hittablePDF := fun _ _ => pdfW
    coin := true }

/-- An environment in which every ray hits `hitW` and scatters. -/
def envScatterW : Env :=
  { mats := fun _ => matScatterW
    worldHit := fun _ _ => some hitW
    cosinePDF := fun n => ⟨n, fun _ => 1⟩
    hittablePDF := fun _ _ => pdfW
    coin := true }

/-- A deterministic chooser satisfying the `rand` choose contract. -/
def selHead : List Object → Option Object := fun l => l.head?

/-- Another chooser, never selecting anything. -/
def selNone : List Object → Option Object := fun _ => none

/-- A non-negative test background color. -/
def bgW : Color := ⟨7/10, 1/5, 0⟩

/-- A tiny concrete render configuration: one column, two rows, one sample. -/
def cfgW : RenderCfg :=
  { nx := 1
    ny := 2
    samples_per_pixel := 1
    max_depth := 1
    hx := fun _ => 0
    hy := fun _ => 0
    get_ray := fun _ _ => rayW
    background := bgW
    env := envMissW
    sel := selHead
    lights := []
    calc_color := fun c _ => c }

/-- The tree built from the concrete two-object test scene. -/
def bvhW : BVH := (BVH.new sceneW 0 1).get (by
  norm_num [BVH.new, buildBVH, buildBVHWith, sceneW, objNear, objFar, planeObj,
    boxNear, boxFar, largestAxis, axis_range, f32MAX, Vec3.get, boxCompareLe,
    box_compare_key, List.insertionSort, List.orderedInsert])

/-- Test box spanning x in [0, 4]; its `box_compare` key on axis 0 is 4. -/
def boxTieA : AABB := ⟨⟨0, 0, 0⟩, ⟨4, 1, 1⟩⟩

/-- Test box spanning x in [1, 3]; its `box_compare` key on axis 0 is also 4,
tying with `boxTieA` while the boxes differ. -/
def boxTieB : AABB := ⟨⟨1, 0, 0⟩, ⟨3, 1, 1⟩⟩

/-- First tied-key test object. -/
def objTieA : Object := planeObj 2 ⟨0, 1, 0⟩ boxTieA 0

/-- Second tied-key test object. -/
def objTieB : Object := planeObj 2 ⟨0, 1, 0⟩ boxTieB 1

/-- A two-object scene whose `box_compare` keys tie on the chosen axis. -/
def tieSceneW : List Object := [objTieA, objTieB]

/-- Box containment is reflexive. -/
theorem AABB.contains_refl (b : AABB) : b.contains b := by
  unfold AABB.contains; refine ⟨le_refl _, le_refl _, le_refl _, le_refl _, le_refl _, le_refl _⟩

/-- Box containment is transitive. -/
theorem AABB.contains_trans {a b c : AABB} (h1 : a.contains b) (h2 : b.contains c) :
    a.contains c := by
  unfold AABB.contains at *
  exact ⟨le_trans h1.1 h2.1, le_trans h1.2.1 h2.2.1, le_trans h1.2.2.1 h2.2.2.1,
    le_trans h2.2.2.2.1 h1.2.2.2.1, le_trans h2.2.2.2.2.1 h1.2.2.2.2.1,
    le_trans h2.2.2.2.2.2 h1.2.2.2.2.2⟩

/-- A point of a contained box lies in the containing box. -/
theorem AABB.memBox_mono {big small : AABB} {p : Vec3} (hc : big.contains small)
    (hm : small.memBox p) : big.memBox p := by
  unfold AABB.contains at hc
  unfold AABB.memBox at *
  exact ⟨le_trans hc.1 hm.1, le_trans hm.2.1 hc.2.2.2.1,
    le_trans hc.2.1 hm.2.2.1, le_trans hm.2.2.2.1 hc.2.2.2.2.1,
    le_trans hc.2.2.1 hm.2.2.2.2.1, le_trans hm.2.2.2.2.2 hc.2.2.2.2.2⟩

/-- The surrounding box contains its first argument. -/
theorem AABB.surrounding_box_contains_left (a b : AABB) :
    (AABB.surrounding_box a b).contains a := by
  unfold AABB.surrounding_box AABB.contains
  exact ⟨min_le_left _ _, min_le_left _ _, min_le_left _ _,
    le_max_left _ _, le_max_left _ _, le_max_left _ _⟩

/-- The surrounding box contains its second argument. -/
theorem AABB.surrounding_box_contains_right (a b : AABB) :
    (AABB.surrounding_box a b).contains b := by
  unfold AABB.surrounding_box AABB.contains
  exact ⟨min_le_right _ _, min_le_right _ _, min_le_right _ _,
    le_max_right _ _, le_max_right _ _, le_max_right _ _⟩

/-- One clipping step keeps any parameter that lies in the incoming interval
and inside the slab. -/
theorem clipSlab_mem {mn mx o d lo hi t : ℚ} (hlo : lo ≤ t) (hhi : t ≤ hi)
    (h1 : mn ≤ o + t * d) (h2 : o + t * d ≤ mx) :
    ∃ lo2 hi2, clipSlab mn mx o d (some (lo, hi)) = some (lo2, hi2) ∧ lo2 ≤ t ∧ t ≤ hi2 := by
  unfold clipSlab
  by_cases hd : d = 0
  · subst hd
    simp only [mul_zero, add_zero] at h1 h2
    simp only [if_pos rfl, if_pos (And.intro h1 h2)]
    exact ⟨lo, hi, rfl, hlo, hhi⟩
  · simp only [if_neg hd]
    refine ⟨_, _, rfl, ?_, ?_⟩
    · rcases lt_or_gt_of_ne hd with hneg | hpos
      · have htb : (mx - o) / d ≤ t := by rw [div_le_iff_of_neg hneg]; linarith
        exact max_le hlo (le_trans (min_le_right _ _) htb)
      · have hta : (mn - o) / d ≤ t := by rw [div_le_iff₀ hpos]; linarith
        exact max_le hlo (le_trans (min_le_left _ _) hta)
    · rcases lt_or_gt_of_ne hd with hneg | hpos
      · have hta : t ≤ (mn - o) / d := by rw [le_div_iff_of_neg hneg]; linarith
        exact le_min hhi (le_trans hta (le_max_left _ _))
      · have htb : t ≤ (mx - o) / d := by rw [le_div_iff₀ hpos]; linarith
        exact le_min hhi (le_trans htb (le_max_right _ _))

/-- Completeness of the slab test: a box reached by the ray at a parameter
inside the queried range passes the test. -/
theorem AABB.hit_of_mem {b : AABB} {r : Ray} {t_min t_max t : ℚ}
    (h1 : t_min ≤ t) (h2 : t ≤ t_max) (hm : b.memBox (r.at t)) :
    b.hit r t_min t_max = true := by
  unfold AABB.memBox Ray.at at hm
  simp only at hm
  obtain ⟨lox, hix, ex, lx, ux⟩ :=
    @clipSlab_mem b.min.x b.max.x r.orig.x r.dir.x t_min t_max t h1 h2 hm.1 hm.2.1
  obtain ⟨loy, hiy, ey, ly, uy⟩ :=
    @clipSlab_mem b.min.y b.max.y r.orig.y r.dir.y lox hix t lx ux hm.2.2.1 hm.2.2.2.1
  obtain ⟨loz, hiz, ez, lz, uz⟩ :=
    @clipSlab_mem b.min.z b.max.z r.orig.z r.dir.z loy hiy t ly uy hm.2.2.2.2.1 hm.2.2.2.2.2
  unfold AABB.hit
  rw [ex, ey, ez]
  simp only [decide_eq_true_eq]
  exact le_trans lz uz

/-- The list minimum is `none` exactly on the empty list. -/
theorem listMinQ_eq_none {l : List ℚ} : listMinQ l = none ↔ l = [] := by
  cases l with
  | nil => simp [listMinQ]
  | cons x xs =>
    simp only [listMinQ]
    cases listMinQ xs <;> simp

/-- A computed list minimum is a member and a lower bound. -/
theorem listMinQ_spec {l : List ℚ} {m : ℚ} (h : listMinQ l = some m) :
    m ∈ l ∧ ∀ x ∈ l, m ≤ x := by
  induction l generalizing m with
  | nil => cases h
  | cons x xs ih =>
    simp only [listMinQ] at h
    cases hxs : listMinQ xs with
    | none =>
      rw [hxs] at h
      cases h
      have hnil : xs = [] := listMinQ_eq_none.mp hxs
      subst hnil
      exact ⟨List.mem_singleton_self _, by intro y hy; simp at hy; simp [hy]⟩
    | some m2 =>
      rw [hxs] at h
      cases h
      obtain ⟨hmem, hle⟩ := ih hxs
      rcases min_cases x m2 with ⟨he, hc⟩ | ⟨he, hc⟩
      · rw [he]
        exact ⟨List.mem_cons_self _ _, by
          intro y hy
          rcases List.mem_cons.mp hy with rfl | hy2
          · exact le_refl _
          · exact le_trans hc (hle y hy2)⟩
      · rw [he]
        exact ⟨List.mem_cons_of_mem _ hmem, by
          intro y hy
          rcases List.mem_cons.mp hy with rfl | hy2
          · exact le_of_lt hc
          · exact hle y hy2⟩

/-- A member that bounds the whole list from below is the list minimum. -/
theorem listMinQ_eq_some {l : List ℚ} {m : ℚ} (hm : m ∈ l) (hle : ∀ x ∈ l, m ≤ x) :
    listMinQ l = some m := by
  cases hsome : listMinQ l with
  | none =>
    rw [listMinQ_eq_none.mp hsome] at hm
    cases hm
  | some m2 =>
    obtain ⟨hmem2, hle2⟩ := listMinQ_spec hsome
    rw [le_antisymm (hle m2 hmem2) (hle2 m hm)]

/-- Construction with any sort behavior from the empty list aborts, at any
fuel. -/
theorem buildBVHWith_nil (sortImpl : List Object → ℕ → List Object)
    (time0 time1 : ℚ) (f : ℕ) : buildBVHWith sortImpl time0 time1 f [] = none := by
  cases f <;> simp [buildBVHWith]

/-- Construction with any sort behavior from a singleton yields the leaf, at
any fuel. -/
theorem buildBVHWith_singleton (sortImpl : List Object → ℕ → List Object)
    (time0 time1 : ℚ) (f : ℕ) (o : Object) :
    buildBVHWith sortImpl time0 time1 f [o] =
      (o.bbox time0 time1).map (fun bx => BVH.leaf o bx) := by
  cases f <;> simp [buildBVHWith]

/-- Exhausted fuel on two or more objects gives nothing, for any sort
behavior. -/
theorem buildBVHWith_zero_cons (sortImpl : List Object → ℕ → List Object)
    (time0 time1 : ℚ) (a b : Object) (l : List Object) :
    buildBVHWith sortImpl time0 time1 0 (a :: b :: l) = none := by
  simp [buildBVHWith]

/-- The unfolding of construction with any sort behavior on two or more
objects with positive fuel. -/
theorem buildBVHWith_cons_cons (sortImpl : List Object → ℕ → List Object)
    (time0 time1 : ℚ) (fuel : ℕ) (a b : Object) (l : List Object) :
    buildBVHWith sortImpl time0 time1 (fuel + 1) (a :: b :: l) =
      if (a :: b :: l).all (fun o => (o.bbox time0 time1).isSome) then
        match buildBVHWith sortImpl time0 time1 fuel
            ((sortImpl (a :: b :: l) (largestAxis (a :: b :: l) time0 time1)).take
              ((a :: b :: l).length / 2)),
          buildBVHWith sortImpl time0 time1 fuel
            ((sortImpl (a :: b :: l) (largestAxis (a :: b :: l) time0 time1)).drop
              ((a :: b :: l).length / 2)) with
        | some left, some right =>
          some (BVH.branch left right (AABB.surrounding_box left.bbox right.bbox))
        | _, _ => none
      else none := by
  simp only [buildBVHWith]

/-- For a length-preserving sort behavior, the construction result does not
depend on the fuel, once the fuel covers the list length. -/
theorem buildBVHWith_fuel_irrel (sortImpl : List Object → ℕ → List Object)
    (time0 time1 : ℚ)
    (hlen : ∀ l axis, (sortImpl l axis).length = l.length) :
    ∀ f1 f2 l, l.length ≤ f1 → l.length ≤ f2 →
      buildBVHWith sortImpl time0 time1 f1 l = buildBVHWith sortImpl time0 time1 f2 l := by
  intro f1
  induction f1 using Nat.strong_induction_on with
  | _ f1 ih =>
    intro f2 l h1 h2
    match l with
    | [] => rw [buildBVHWith_nil, buildBVHWith_nil]
    | [o] => rw [buildBVHWith_singleton, buildBVHWith_singleton]
    | a :: b :: l =>
      have hlen2 : (a :: b :: l).length = l.length + 2 := by simp
      obtain ⟨g1, rfl⟩ : ∃ g, f1 = g + 1 := ⟨f1 - 1, by omega⟩
      obtain ⟨g2, rfl⟩ : ∃ g, f2 = g + 1 := ⟨f2 - 1, by omega⟩
      rw [buildBVHWith_cons_cons, buildBVHWith_cons_cons]
      have hs : (sortImpl (a :: b :: l)
          (largestAxis (a :: b :: l) time0 time1)).length
          = (a :: b :: l).length := hlen _ _
      have ht : ((sortImpl (a :: b :: l)
          (largestAxis (a :: b :: l) time0 time1)).take
          ((a :: b :: l).length / 2)).length
          = Min.min ((a :: b :: l).length / 2)
            ((a :: b :: l).length) := by rw [List.length_take, hs]
      have hd : ((sortImpl (a :: b :: l)
          (largestAxis (a :: b :: l) time0 time1)).drop
          ((a :: b :: l).length / 2)).length
          = (a :: b :: l).length - (a :: b :: l).length / 2 := by
        rw [List.length_drop, hs]
      rw [ih g1 (by omega) g2 _ (by omega) (by omega),
        ih g1 (by omega) g2 _ (by omega) (by omega)]

/-- Construction from the empty list aborts, at any fuel. -/
theorem buildBVH_nil (time0 time1 : ℚ) (f : ℕ) : buildBVH time0 time1 f [] = none := by
  unfold buildBVH
  exact buildBVHWith_nil _ time0 time1 f

/-- Construction from a singleton yields the leaf, at any fuel. -/
theorem buildBVH_singleton (time0 time1 : ℚ) (f : ℕ) (o : Object) :
    buildBVH time0 time1 f [o] = (o.bbox time0 time1).map (fun bx => BVH.leaf o bx) := by
  unfold buildBVH
  exact buildBVHWith_singleton _ time0 time1 f o

/-- The unfolding of construction on two or more objects with positive fuel. -/
theorem buildBVH_cons_cons (time0 time1 : ℚ) (fuel : ℕ) (a b : Object) (l : List Object) :
    buildBVH time0 time1 (fuel + 1) (a :: b :: l) =
      if (a :: b :: l).all (fun o => (o.bbox time0 time1).isSome) then
        match buildBVH time0 time1 fuel
            (((a :: b :: l).insertionSort
              (boxCompareLe time0 time1 (largestAxis (a :: b :: l) time0 time1))).take
              ((a :: b :: l).length / 2)),
          buildBVH time0 time1 fuel
            (((a :: b :: l).insertionSort
              (boxCompareLe time0 time1 (largestAxis (a :: b :: l) time0 time1))).drop
              ((a :: b :: l).length / 2)) with
        | some left, some right =>
          some (BVH.branch left right (AABB.surrounding_box left.bbox right.bbox))
        | _, _ => none
      else none := by
  unfold buildBVH
  exact buildBVHWith_cons_cons _ time0 time1 fuel a b l

/-- The construction result does not depend on the fuel, once the fuel covers
the list length. -/
theorem buildBVH_fuel_irrel (time0 time1 : ℚ) :
    ∀ f1 f2 l, l.length ≤ f1 → l.length ≤ f2 →
      buildBVH time0 time1 f1 l = buildBVH time0 time1 f2 l := by
  intro f1 f2 l h1 h2
  unfold buildBVH
  exact buildBVHWith_fuel_irrel _ time0 time1
    (fun l2 axis => List.length_insertionSort _ _) f1 f2 l h1 h2

/-- Exhausted fuel on two or more objects gives nothing (never reached from
`BVH.new`, whose fuel is the list length). -/
theorem buildBVH_zero_cons (time0 time1 : ℚ) (a b : Object) (l : List Object) :
    buildBVH time0 time1 0 (a :: b :: l) = none := by
  unfold buildBVH
  exact buildBVHWith_zero_cons _ time0 time1 a b l

/-- Construction succeeds exactly on a non-empty list of bounded objects. -/
theorem buildBVH_isSome_iff (time0 time1 : ℚ) :
    ∀ f l, l.length ≤ f →
      ((buildBVH time0 time1 f l).isSome ↔
        l ≠ [] ∧ ∀ o ∈ l, (o.bbox time0 time1).isSome) := by
  intro f
  induction f using Nat.strong_induction_on with
  | _ f ih =>
    intro l hf
    match l with
    | [] => simp [buildBVH_nil]
    | [o] => simp [buildBVH_singleton]
    | a :: b :: l =>
      have hlen : (a :: b :: l).length = l.length + 2 := by simp
      obtain ⟨g, rfl⟩ : ∃ g, f = g + 1 := ⟨f - 1, by omega⟩
      rw [buildBVH_cons_cons]
      by_cases hall : (a :: b :: l).all (fun o => (o.bbox time0 time1).isSome)
      · rw [if_pos hall]
        have hmem : ∀ o ∈ (a :: b :: l), (o.bbox time0 time1).isSome :=
          fun o ho => List.all_eq_true.mp hall o ho
        have hperm := List.perm_insertionSort
          (boxCompareLe time0 time1 (largestAxis (a :: b :: l) time0 time1)) (a :: b :: l)
        have hs : ((a :: b :: l).insertionSort
            (boxCompareLe time0 time1 (largestAxis (a :: b :: l) time0 time1))).length
            = (a :: b :: l).length := List.length_insertionSort _ _
        have hlen2 : 2 ≤ (a :: b :: l).length := by rw [hlen]; omega
        have h1 : (buildBVH time0 time1 g
            (((a :: b :: l).insertionSort
              (boxCompareLe time0 time1 (largestAxis (a :: b :: l) time0 time1))).take
              ((a :: b :: l).length / 2))).isSome := by
          rw [ih g (by omega) _ (by rw [List.length_take, hs]; omega)]
          constructor
          · intro hnil
            have hlt := congrArg List.length hnil
            rw [List.length_take, hs, List.length_nil] at hlt
            omega
          · intro o ho
            exact hmem o (hperm.subset (List.mem_of_mem_take ho))
        have h2 : (buildBVH time0 time1 g
            (((a :: b :: l).insertionSort
              (boxCompareLe time0 time1 (largestAxis (a :: b :: l) time0 time1))).drop
              ((a :: b :: l).length / 2))).isSome := by
          rw [ih g (by omega) _ (by rw [List.length_drop, hs]; omega)]
          constructor
          · intro hnil
            have hlt := congrArg List.length hnil
            rw [List.length_drop, hs, List.length_nil] at hlt
            omega
          · intro o ho
            exact hmem o (hperm.subset (List.mem_of_mem_drop ho))
        obtain ⟨lt, hlt⟩ := Option.isSome_iff_exists.mp h1
        obtain ⟨rt, hrt⟩ := Option.isSome_iff_exists.mp h2
        rw [hlt, hrt]
        simp only [Option.isSome_some, true_iff]
        exact ⟨by simp, hmem⟩
      · rw [if_neg hall]
        simp only [Option.isSome_none, Bool.false_eq_true, false_iff]
        intro hcon
        exact hall (List.all_eq_true.mpr hcon.2)

/-- The leaves of a constructed tree are a permutation of the input list. -/
theorem buildBVH_toList (time0 time1 : ℚ) :
    ∀ f l b, buildBVH time0 time1 f l = some b → b.toList.Perm l := by
  intro f
  induction f using Nat.strong_induction_on with
  | _ f ih =>
    intro l b hb
    match l with
    | [] => rw [buildBVH_nil] at hb; cases hb
    | [o] =>
      rw [buildBVH_singleton] at hb
      cases hbx : o.bbox time0 time1 with
      | none => rw [hbx] at hb; cases hb
      | some bx =>
        rw [hbx] at hb
        cases hb
        simp [BVH.toList]
    | a :: c :: l =>
      cases f with
      | zero => rw [buildBVH_zero_cons] at hb; cases hb
      | succ g => ?_
      rw [buildBVH_cons_cons] at hb
      by_cases hall : (a :: c :: l).all (fun o => (o.bbox time0 time1).isSome)
      · rw [if_pos hall] at hb
        have hperm := List.perm_insertionSort
          (boxCompareLe time0 time1 (largestAxis (a :: c :: l) time0 time1)) (a :: c :: l)
        cases hL : buildBVH time0 time1 g
            (((a :: c :: l).insertionSort
              (boxCompareLe time0 time1 (largestAxis (a :: c :: l) time0 time1))).take
              ((a :: c :: l).length / 2)) with
        | none => rw [hL] at hb; cases hb
        | some lt =>
          cases hR : buildBVH time0 time1 g
              (((a :: c :: l).insertionSort
                (boxCompareLe time0 time1 (largestAxis (a :: c :: l) time0 time1))).drop
                ((a :: c :: l).length / 2)) with
          | none => rw [hL, hR] at hb; cases hb
          | some rt =>
            rw [hL, hR] at hb
            cases hb
            have pl := ih g (by omega) _ _ hL
            have pr := ih g (by omega) _ _ hR
            have happ := pl.append pr
            rw [List.take_append_drop] at happ
            exact (happ.trans hperm)
      · rw [if_neg hall] at hb; cases hb

/-- A constructed tree satisfies the structural box invariant. -/
theorem buildBVH_wellBoxed (time0 time1 : ℚ) :
    ∀ f l b, buildBVH time0 time1 f l = some b → b.WellBoxed time0 time1 := by
  intro f
  induction f using Nat.strong_induction_on with
  | _ f ih =>
    intro l b hb
    match l with
    | [] => rw [buildBVH_nil] at hb; cases hb
    | [o] =>
      rw [buildBVH_singleton] at hb
      cases hbx : o.bbox time0 time1 with
      | none => rw [hbx] at hb; cases hb
      | some bx =>
        rw [hbx] at hb
        cases hb
        exact hbx
    | a :: c :: l =>
      cases f with
      | zero => rw [buildBVH_zero_cons] at hb; cases hb
      | succ g => ?_
      rw [buildBVH_cons_cons] at hb
      by_cases hall : (a :: c :: l).all (fun o => (o.bbox time0 time1).isSome)
      · rw [if_pos hall] at hb
        cases hL : buildBVH time0 time1 g
            (((a :: c :: l).insertionSort
              (boxCompareLe time0 time1 (largestAxis (a :: c :: l) time0 time1))).take
              ((a :: c :: l).length / 2)) with
        | none => rw [hL] at hb; cases hb
        | some lt =>
          cases hR : buildBVH time0 time1 g
              (((a :: c :: l).insertionSort
                (boxCompareLe time0 time1 (largestAxis (a :: c :: l) time0 time1))).drop
                ((a :: c :: l).length / 2)) with
          | none => rw [hL, hR] at hb; cases hb
          | some rt =>
            rw [hL, hR] at hb
            cases hb
            exact ⟨rfl, ih g (by omega) _ _ hL, ih g (by omega) _ _ hR⟩
      · rw [if_neg hall] at hb; cases hb

/-- In a well-boxed tree, the node box contains the box of every stored
object. -/
theorem wellBoxed_contains_obj {time0 time1 : ℚ} :
    ∀ b : BVH, b.WellBoxed time0 time1 →
      ∀ o ∈ b.toList, ∀ bo, o.bbox time0 time1 = some bo → b.bbox.contains bo := by
  intro b
  induction b with
  | leaf obj bx =>
    intro hw o ho bo hbo
    simp [BVH.toList] at ho
    subst ho
    have : bx = bo := by
      have := hw
      unfold BVH.WellBoxed at this
      rw [this] at hbo
      cases hbo
      rfl
    rw [BVH.bbox, this]
    exact AABB.contains_refl bo
  | branch lt rt bx ihl ihr =>
    intro hw o ho bo hbo
    obtain ⟨hbx, hwl, hwr⟩ := hw
    rw [BVH.bbox, hbx]
    rcases List.mem_append.mp (by simpa [BVH.toList] using ho) with hml | hmr
    · exact AABB.contains_trans (AABB.surrounding_box_contains_left _ _)
        (ihl hwl o hml bo hbo)
    · exact AABB.contains_trans (AABB.surrounding_box_contains_right _ _)
        (ihr hwr o hmr bo hbo)

/-- Every subtree of a well-boxed tree is well-boxed. -/
theorem wellBoxed_descendants {time0 time1 : ℚ} :
    ∀ b : BVH, b.WellBoxed time0 time1 →
      ∀ d ∈ b.descendants, d.WellBoxed time0 time1 := by
  intro b
  induction b with
  | leaf obj bx =>
    intro hw d hd
    simp [BVH.descendants] at hd
    subst hd
    exact hw
  | branch lt rt bx ihl ihr =>
    intro hw d hd
    obtain ⟨hbx, hwl, hwr⟩ := hw
    rcases List.mem_cons.mp hd with rfl | hd2
    · exact ⟨hbx, hwl, hwr⟩
    · rcases List.mem_append.mp hd2 with hdl | hdr
      · exact ihl hwl d hdl
      · exact ihr hwr d hdr

/-- In a well-boxed tree, the node box contains the box of every subtree. -/
theorem wellBoxed_contains_descendants {time0 time1 : ℚ} :
    ∀ b : BVH, b.WellBoxed time0 time1 →
      ∀ d ∈ b.descendants, b.bbox.contains d.bbox := by
  intro b
  induction b with
  | leaf obj bx =>
    intro hw d hd
    simp [BVH.descendants] at hd
    subst hd
    exact AABB.contains_refl _
  | branch lt rt bx ihl ihr =>
    intro hw d hd
    obtain ⟨hbx, hwl, hwr⟩ := hw
    rcases List.mem_cons.mp hd with rfl | hd2
    · exact AABB.contains_refl _
    · rw [BVH.bbox, hbx]
      rcases List.mem_append.mp hd2 with hdl | hdr
      · exact AABB.contains_trans (AABB.surrounding_box_contains_left _ _)
          (ihl hwl d hdl)
      · exact AABB.contains_trans (AABB.surrounding_box_contains_right _ _)
          (ihr hwr d hdr)

/-- A hit reported under a tighter upper bound is also the hit reported under
a looser one: with the same lower bound, the nearest intersection of the wide
range cannot differ from the one seen in the narrow range. -/
theorem LawfulObject.widen {o : Object} {time0 time1 : ℚ}
    (lo : LawfulObject o time0 time1) {r : Ray} {t_min ta tb : ℚ} {h : HitRecord}
    (hh : o.hit r t_min ta = some h) (hab : ta ≤ tb) :
    o.hit r t_min tb = some h := by
  have hsome : (o.hit r t_min tb).isSome :=
    lo.some_mono r t_min tb ta hab (by rw [hh]; rfl)
  obtain ⟨h2, hh2⟩ := Option.isSome_iff_exists.mp hsome
  have hle : h2.t ≤ h.t := lo.min_t r t_min tb ta h2 h hab hh2 hh
  have hlt : h.t < ta := (lo.inRange r t_min ta h hh).2
  have hshr := lo.shrink r t_min tb ta h2 hh2 (lt_of_le_of_lt hle hlt) hab
  have heq : some h2 = some h := hshr.symm.trans hh
  injection heq with heq2
  subst heq2
  exact hh2

/-- Any hit reported by a tree with lawful leaves lies strictly inside the
queried range. -/
theorem bvh_hit_range {time0 time1 : ℚ} :
    ∀ b : BVH, (∀ o ∈ b.toList, LawfulObject o time0 time1) →
      ∀ r t_min t_max h, b.hit r t_min t_max = some h →
        t_min < h.t ∧ h.t < t_max := by
  intro b
  induction b with
  | leaf obj bx =>
    intro hl r t_min t_max h hh
    simp only [BVH.hit] at hh
    split at hh
    · exact (hl obj (by simp [BVH.toList])).inRange r t_min t_max h hh
    · cases hh
  | branch lt rt bx ihl ihr =>
    intro hl r t_min t_max h hh
    have hll : ∀ o ∈ lt.toList, LawfulObject o time0 time1 :=
      fun o ho => hl o (by simp [BVH.toList, ho])
    have hlr : ∀ o ∈ rt.toList, LawfulObject o time0 time1 :=
      fun o ho => hl o (by simp [BVH.toList, ho])
    simp only [BVH.hit] at hh
    split at hh
    · cases hL : lt.hit r t_min t_max with
      | some hl1 =>
        rw [hL] at hh
        cases hR : rt.hit r t_min hl1.t with
        | some hr1 =>
          rw [hR] at hh
          cases hh
          have h2 := ihr hlr r t_min hl1.t _ hR
          have h1 := ihl hll r t_min t_max hl1 hL
          exact ⟨h2.1, lt_trans h2.2 h1.2⟩
        | none =>
          rw [hR] at hh
          cases hh
          exact ihl hll r t_min t_max _ hL
      | none =>
        rw [hL] at hh
        cases hR : rt.hit r t_min t_max with
        | some hr1 =>
          rw [hR] at hh
          cases hh
          exact ihr hlr r t_min t_max _ hR
        | none => rw [hR] at hh; cases hh
    · cases hh

/-- Any hit returned by a tree with lawful leaves is the full-range hit of one
of its objects. -/
theorem bvh_hit_sound {time0 time1 : ℚ} :
    ∀ b : BVH, (∀ o ∈ b.toList, LawfulObject o time0 time1) →
      ∀ r t_min t_max h, b.hit r t_min t_max = some h →
        ∃ o ∈ b.toList, o.hit r t_min t_max = some h := by
  intro b
  induction b with
  | leaf obj bx =>
    intro hl r t_min t_max h hh
    simp only [BVH.hit] at hh
    split at hh
    · exact ⟨obj, by simp [BVH.toList], hh⟩
    · cases hh
  | branch lt rt bx ihl ihr =>
    intro hl r t_min t_max h hh
    have hll : ∀ o ∈ lt.toList, LawfulObject o time0 time1 :=
      fun o ho => hl o (by simp [BVH.toList, ho])
    have hlr : ∀ o ∈ rt.toList, LawfulObject o time0 time1 :=
      fun o ho => hl o (by simp [BVH.toList, ho])
    simp only [BVH.hit] at hh
    split at hh
    · cases hL : lt.hit r t_min t_max with
      | some hl1 =>
        rw [hL] at hh
        cases hR : rt.hit r t_min hl1.t with
        | some hr1 =>
          rw [hR] at hh
          cases hh
          obtain ⟨o, ho, hohit⟩ := ihr hlr r t_min hl1.t _ hR
          have hl1t : hl1.t < t_max := (bvh_hit_range lt hll r t_min t_max hl1 hL).2
          refine ⟨o, by simp [BVH.toList, ho], ?_⟩
          exact (hlr o ho).widen hohit (le_of_lt hl1t)
        | none =>
          rw [hR] at hh
          cases hh
          obtain ⟨o, ho, hohit⟩ := ihl hll r t_min t_max _ hL
          exact ⟨o, by simp [BVH.toList, ho], hohit⟩
      | none =>
        rw [hL] at hh
        cases hR : rt.hit r t_min t_max with
        | some hr1 =>
          rw [hR] at hh
          cases hh
          obtain ⟨o, ho, hohit⟩ := ihr hlr r t_min t_max _ hR
          exact ⟨o, by simp [BVH.toList, ho], hohit⟩
        | none => rw [hR] at hh; cases hh
    · cases hh

/-- If any object of a well-boxed tree with lawful leaves hits the ray in the
range, the tree reports a hit at most as far. -/
theorem bvh_hit_complete {time0 time1 : ℚ} :
    ∀ b : BVH, b.WellBoxed time0 time1 →
      (∀ o ∈ b.toList, LawfulObject o time0 time1) →
      ∀ r t_min t_max o h0, o ∈ b.toList → o.hit r t_min t_max = some h0 →
        ∃ h, b.hit r t_min t_max = some h ∧ h.t ≤ h0.t := by
  intro b
  induction b with
  | leaf obj bx =>
    intro hw hl r t_min t_max o h0 ho hh0
    have hobj : o = obj := by simpa [BVH.toList] using ho
    subst hobj
    have lo := hl o (by simp [BVH.toList])
    have hbo : o.bbox time0 time1 = some bx := hw
    have hrange := lo.inRange _ _ _ _ hh0
    have hmem := lo.inBox _ _ _ _ _ hh0 hbo
    have hbx : bx.hit r t_min t_max = true :=
      AABB.hit_of_mem (le_of_lt hrange.1) (le_of_lt hrange.2) hmem
    refine ⟨h0, ?_, le_refl _⟩
    simp only [BVH.hit, hbx, if_true]
    exact hh0
  | branch lt rt bx ihl ihr =>
    intro hw hl r t_min t_max o h0 ho hh0
    have hw0 := hw
    obtain ⟨hbxeq, hwl, hwr⟩ := hw
    have hll : ∀ o ∈ lt.toList, LawfulObject o time0 time1 :=
      fun o ho => hl o (by simp [BVH.toList, ho])
    have hlr : ∀ o ∈ rt.toList, LawfulObject o time0 time1 :=
      fun o ho => hl o (by simp [BVH.toList, ho])
    have lo := hl o ho
    obtain ⟨bo, hbo⟩ := Option.isSome_iff_exists.mp lo.bounded
    have hcont : (BVH.branch lt rt bx).bbox.contains bo :=
      wellBoxed_contains_obj _ hw0 o ho bo hbo
    have hrange := lo.inRange _ _ _ _ hh0
    have hmemo := lo.inBox _ _ _ _ _ hh0 hbo
    have hbx : bx.hit r t_min t_max = true :=
      AABB.hit_of_mem (le_of_lt hrange.1) (le_of_lt hrange.2)
        (AABB.memBox_mono hcont hmemo)
    rcases List.mem_append.mp (by simpa [BVH.toList] using ho) with hol | hor
    · obtain ⟨hl1, hLeq, hle1⟩ := ihl hwl hll r t_min t_max o h0 hol hh0
      cases hR : rt.hit r t_min hl1.t with
      | some hr1 =>
        refine ⟨hr1, ?_, ?_⟩
        · simp only [BVH.hit, hbx, hLeq, hR, if_true]
        · have hrr := bvh_hit_range rt hlr r t_min hl1.t hr1 hR
          exact le_trans (le_of_lt hrr.2) hle1
      | none =>
        exact ⟨hl1, by simp only [BVH.hit, hbx, hLeq, hR, if_true], hle1⟩
    · cases hL : lt.hit r t_min t_max with
      | none =>
        obtain ⟨hr1, hReq, hle1⟩ := ihr hwr hlr r t_min t_max o h0 hor hh0
        exact ⟨hr1, by simp only [BVH.hit, hbx, hL, hReq, if_true], hle1⟩
      | some hl1 =>
        have hl1range := bvh_hit_range lt hll r t_min t_max hl1 hL
        by_cases hc : h0.t < hl1.t
        · have hh0s := lo.shrink r t_min t_max hl1.t h0 hh0 hc (le_of_lt hl1range.2)
          obtain ⟨hr1, hReq, hle1⟩ := ihr hwr hlr r t_min hl1.t o h0 hor hh0s
          exact ⟨hr1, by simp only [BVH.hit, hbx, hL, hReq, if_true], hle1⟩
        · push_neg at hc
          cases hR : rt.hit r t_min hl1.t with
          | some hr1 =>
            have hrr := bvh_hit_range rt hlr r t_min hl1.t hr1 hR
            exact ⟨hr1, by simp only [BVH.hit, hbx, hL, hR, if_true],
              le_trans (le_of_lt hrr.2) hc⟩
          | none =>
            exact ⟨hl1, by simp only [BVH.hit, hbx, hL, hR, if_true], hc⟩

/-- The flat test primitive satisfies the collaborator contract. -/
theorem lawful_planeObj (tc : ℚ) (nrm : Vec3) (box : AABB) (mid : ℕ)
    (time0 time1 : ℚ) : LawfulObject (planeObj tc nrm box mid) time0 time1 := by
  constructor
  · rfl
  · intro r t_min t_max h hh
    simp only [planeObj] at hh
    split at hh
    · rename_i hc
      cases hh
      exact ⟨hc.1, hc.2.1⟩
    · cases hh
  · intro r t_min t_max h b hh hb
    simp only [planeObj] at hh hb
    cases hb
    split at hh
    · rename_i hc
      cases hh
      exact hc.2.2
    · cases hh
  · intro r t_min t_max t_max2 h hh h2 h3
    simp only [planeObj] at hh ⊢
    split at hh
    · rename_i hc
      cases hh
      rw [if_pos ⟨hc.1, h2, hc.2.2⟩]
    · cases hh
  · intro r t_min t_max t_max2 hle hsome
    simp only [planeObj] at hsome ⊢
    split at hsome
    · rename_i hc
      rw [if_pos ⟨hc.1, lt_of_lt_of_le hc.2.1 hle, hc.2.2⟩]
      rfl
    · simp at hsome
  · intro r t_min t_max t_max2 h h2 hle hh hh2
    simp only [planeObj] at hh hh2
    split at hh
    · rename_i hc
      cases hh
      split at hh2
      · cases hh2
        exact le_refl _
      · cases hh2
    · cases hh

/-- The two objects of the concrete test scene are lawful. -/
theorem lawful_sceneW : ∀ o ∈ sceneW, LawfulObject o 0 1 := by
  intro o ho
  simp only [sceneW] at ho
  rcases List.mem_cons.mp ho with rfl | ho2
  · exact lawful_planeObj 5 ⟨-1, 0, 0⟩ boxFar 1 0 1
  · rcases List.mem_cons.mp ho2 with rfl | ho3
    · exact lawful_planeObj 2 ⟨-1, 0, 0⟩ boxNear 0 0 1
    · cases ho3

/-- The chosen axis maximises the extent over the three axes. -/
theorem largestAxis_spec (l : List Object) (time0 time1 : ℚ) :
    ∀ a, a < 3 →
      axis_range l time0 time1 a ≤ axis_range l time0 time1 (largestAxis l time0 time1) := by
  intro a ha
  have ha3 : a = 0 ∨ a = 1 ∨ a = 2 := by omega
  unfold largestAxis
  rcases ha3 with rfl | rfl | rfl <;> dsimp only <;> split_ifs <;> linarith

/-- C1: for every ray, every t-range and every BVH constructed from a list of
objects satisfying the collaborator contract, the hit returned by `BVH::hit`
is one of the hits obtained by intersecting the ray against every object of
the list individually, and its parametric distance is the minimum such
distance within the range (the query misses exactly when every individual
test misses). -/
theorem bvh_hit_eq_closest (l : List Object) (time0 time1 : ℚ) (b : BVH)
    (hb : BVH.new l time0 time1 = some b)
    (hl : ∀ o ∈ l, LawfulObject o time0 time1)
    (r : Ray) (t_min t_max : ℚ) :
    (b.hit r t_min t_max).map HitRecord.t = closestT l r t_min t_max ∧
    ∀ h, b.hit r t_min t_max = some h → ∃ o ∈ l, o.hit r t_min t_max = some h := by
  have hperm : b.toList.Perm l := buildBVH_toList time0 time1 _ l b hb
  have hmem : ∀ o, o ∈ b.toList ↔ o ∈ l := fun o => hperm.mem_iff
  have hlb : ∀ o ∈ b.toList, LawfulObject o time0 time1 :=
    fun o ho => hl o ((hmem o).mp ho)
  have hwb : b.WellBoxed time0 time1 := buildBVH_wellBoxed time0 time1 _ l b hb
  have hsound : ∀ h, b.hit r t_min t_max = some h →
      ∃ o ∈ l, o.hit r t_min t_max = some h := by
    intro h hh
    obtain ⟨o, ho, hoh⟩ := bvh_hit_sound b hlb r t_min t_max h hh
    exact ⟨o, (hmem o).mp ho, hoh⟩
  refine ⟨?_, hsound⟩
  cases hres : b.hit r t_min t_max with
  | some h =>
    obtain ⟨o, ho, hoh⟩ := hsound h hres
    have hmemT : h.t ∈ l.filterMap (fun o => (o.hit r t_min t_max).map HitRecord.t) :=
      List.mem_filterMap.mpr ⟨o, ho, by rw [hoh]; rfl⟩
    have hlbnd : ∀ x ∈ l.filterMap (fun o => (o.hit r t_min t_max).map HitRecord.t),
        h.t ≤ x := by
      intro x hx
      obtain ⟨o2, ho2, ho2m⟩ := List.mem_filterMap.mp hx
      cases ho2h : o2.hit r t_min t_max with
      | none => rw [ho2h] at ho2m; cases ho2m
      | some h2 =>
        rw [ho2h, Option.map_some'] at ho2m
        injection ho2m with hx2
        subst hx2
        obtain ⟨hb2, hbh2, hble⟩ :=
          bvh_hit_complete b hwb hlb r t_min t_max o2 h2 ((hmem o2).mpr ho2) ho2h
        rw [hres] at hbh2
        injection hbh2 with hbh2e
        subst hbh2e
        exact hble
    rw [closestT, listMinQ_eq_some hmemT hlbnd]
    rfl
  | none =>
    have hnone : ∀ o ∈ l, o.hit r t_min t_max = none := by
      intro o ho
      cases hoh : o.hit r t_min t_max with
      | none => rfl
      | some h0 =>
        obtain ⟨h, hh, _⟩ :=
          bvh_hit_complete b hwb hlb r t_min t_max o h0 ((hmem o).mpr ho) hoh
        rw [hres] at hh
        cases hh
    rw [closestT]
    have hfm : l.filterMap (fun o => (o.hit r t_min t_max).map HitRecord.t) = [] := by
      apply List.filterMap_eq_nil_iff.mpr
      intro o ho
      rw [hnone o ho]
      rfl
    rw [hfm]
    rfl

/-- C3: constructing a BVH aborts exactly on an empty object list or on a
list containing an object without a bounding box for the time interval; on
every non-empty list of bounded objects it returns a tree. -/
theorem bvh_new_fatal_iff (l : List Object) (time0 time1 : ℚ) :
    BVH.new l time0 time1 = none ↔
      l = [] ∨ ∃ o ∈ l, o.bbox time0 time1 = none := by
  have h := buildBVH_isSome_iff time0 time1 l.length l (le_refl _)
  constructor
  · intro hn
    unfold BVH.new at hn
    rw [hn] at h
    simp only [Option.isSome_none, Bool.false_eq_true, false_iff] at h
    push_neg at h
    by_cases hl : l = []
    · exact Or.inl hl
    · obtain ⟨o, ho, hno⟩ := h hl
      refine Or.inr ⟨o, ho, ?_⟩
      cases hbo : o.bbox time0 time1 with
      | none => rfl
      | some bx => rw [hbo] at hno; simp at hno
  · intro hor
    unfold BVH.new
    cases hv : buildBVH time0 time1 l.length l with
    | none => rfl
    | some b =>
      exfalso
      have hsome : (buildBVH time0 time1 l.length l).isSome := by rw [hv]; rfl
      obtain ⟨hne, hall⟩ := h.mp hsome
      rcases hor with rfl | ⟨o, ho, hbo⟩
      · exact hne rfl
      · have := hall o ho
        rw [hbo] at this
        simp at this

/-- The stable insertion sort is one conforming behavior of the source sort:
for every input it returns a permutation ordered by the comparator. -/
theorem stableSort_conforms (time0 time1 : ℚ) :
    ∀ (l : List Object) (axis : ℕ),
      List.Pairwise (boxCompareLe time0 time1 axis)
        (l.insertionSort (boxCompareLe time0 time1 axis)) ∧
      (l.insertionSort (boxCompareLe time0 time1 axis)).Perm l := by
  intro l axis
  constructor
  · haveI : IsTotal Object (boxCompareLe time0 time1 axis) :=
      ⟨fun a b => le_total _ _⟩
    haveI : IsTrans Object (boxCompareLe time0 time1 axis) :=
      ⟨fun a b c hab hbc => le_trans hab hbc⟩
    exact List.sorted_insertionSort _ _
  · exact List.perm_insertionSort _ _

/-- C5 (amended): at a recursion step on two or more bounded objects, under
any sort behavior admissible for `sort_unstable_by` (the sorted set is a
permutation of the input ordered by the `box_compare` key; the order of tied
keys is unspecified), construction chooses the axis of largest extent, sorts
the objects by the box min-plus-max coordinate on that axis, splits the
sorted list at its midpoint into halves of sizes floor and ceiling of half
the length (the first half feeding the left child), and wraps the recursively
built children; a single bounded object yields a leaf caching exactly that
object box. -/
theorem bvh_build_split_unstable (l : List Object) (time0 time1 : ℚ)
    (sortImpl : List Object → ℕ → List Object)
    (hsort : ∀ l2 axis,
      List.Pairwise (boxCompareLe time0 time1 axis) (sortImpl l2 axis) ∧
      (sortImpl l2 axis).Perm l2)
    (hbd : ∀ o ∈ l, (o.bbox time0 time1).isSome) (h2 : 2 ≤ l.length) :
    (∀ o bx, o.bbox time0 time1 = some bx →
      buildBVHWith sortImpl time0 time1 1 [o] = some (BVH.leaf o bx)) ∧
    (∀ a, a < 3 →
      axis_range l time0 time1 a ≤
        axis_range l time0 time1 (largestAxis l time0 time1)) ∧
    List.Pairwise (boxCompareLe time0 time1 (largestAxis l time0 time1))
      (sortImpl l (largestAxis l time0 time1)) ∧
    (sortImpl l (largestAxis l time0 time1)).Perm l ∧
    ((sortImpl l (largestAxis l time0 time1)).take
      (l.length / 2)).length = l.length / 2 ∧
    ((sortImpl l (largestAxis l time0 time1)).drop
      (l.length / 2)).length = l.length - l.length / 2 ∧
    l.length - l.length / 2 = (l.length + 1) / 2 ∧
    buildBVHWith sortImpl time0 time1 l.length l =
      Option.bind (buildBVHWith sortImpl time0 time1
          ((sortImpl l (largestAxis l time0 time1)).take (l.length / 2)).length
          ((sortImpl l (largestAxis l time0 time1)).take (l.length / 2)))
        (fun left => Option.bind (buildBVHWith sortImpl time0 time1
            ((sortImpl l (largestAxis l time0 time1)).drop (l.length / 2)).length
            ((sortImpl l (largestAxis l time0 time1)).drop (l.length / 2)))
          (fun right =>
            some (BVH.branch left right
              (AABB.surrounding_box left.bbox right.bbox)))) := by
  have hlen : ∀ l2 axis, (sortImpl l2 axis).length = l2.length :=
    fun l2 axis => (hsort l2 axis).2.length_eq
  have hsl : (sortImpl l (largestAxis l time0 time1)).length = l.length := hlen _ _
  refine ⟨?_, largestAxis_spec l time0 time1,
    (hsort l (largestAxis l time0 time1)).1, (hsort l (largestAxis l time0 time1)).2,
    ?_, ?_, by omega, ?_⟩
  · intro o bx hbx
    rw [buildBVHWith_singleton, hbx]
    rfl
  · rw [List.length_take, hsl]
    omega
  · rw [List.length_drop, hsl]
  · obtain ⟨a, l1, rfl⟩ : ∃ a l1, l = a :: l1 := by
      cases l with
      | nil => simp at h2
      | cons a l1 => exact ⟨a, l1, rfl⟩
    obtain ⟨b, l2, rfl⟩ : ∃ b l2, l1 = b :: l2 := by
      cases l1 with
      | nil => simp at h2
      | cons b l2 => exact ⟨b, l2, rfl⟩
    have hlen2 : (a :: b :: l2).length = l2.length + 2 := by simp
    have hall : (a :: b :: l2).all (fun o => (o.bbox time0 time1).isSome) :=
      List.all_eq_true.mpr hbd
    conv_lhs => rw [show (a :: b :: l2).length = (l2.length + 1) + 1 by omega]
    rw [buildBVHWith_cons_cons, if_pos hall]
    have e1 : buildBVHWith sortImpl time0 time1 (l2.length + 1)
        ((sortImpl (a :: b :: l2) (largestAxis (a :: b :: l2) time0 time1)).take
          ((a :: b :: l2).length / 2)) =
        buildBVHWith sortImpl time0 time1
          ((sortImpl (a :: b :: l2) (largestAxis (a :: b :: l2) time0 time1)).take
            ((a :: b :: l2).length / 2)).length
          ((sortImpl (a :: b :: l2) (largestAxis (a :: b :: l2) time0 time1)).take
            ((a :: b :: l2).length / 2)) := by
      apply buildBVHWith_fuel_irrel sortImpl time0 time1 hlen
      · rw [List.length_take, hsl]; omega
      · exact le_refl _
    have e2 : buildBVHWith sortImpl time0 time1 (l2.length + 1)
        ((sortImpl (a :: b :: l2) (largestAxis (a :: b :: l2) time0 time1)).drop
          ((a :: b :: l2).length / 2)) =
        buildBVHWith sortImpl time0 time1
          ((sortImpl (a :: b :: l2) (largestAxis (a :: b :: l2) time0 time1)).drop
            ((a :: b :: l2).length / 2)).length
          ((sortImpl (a :: b :: l2) (largestAxis (a :: b :: l2) time0 time1)).drop
            ((a :: b :: l2).length / 2)) := by
      apply buildBVHWith_fuel_irrel sortImpl time0 time1 hlen
      · rw [List.length_drop, hsl]; omega
      · exact le_refl _
    rw [e1, e2]
    cases buildBVHWith sortImpl time0 time1
        ((sortImpl (a :: b :: l2) (largestAxis (a :: b :: l2) time0 time1)).take
          ((a :: b :: l2).length / 2)).length
        ((sortImpl (a :: b :: l2) (largestAxis (a :: b :: l2) time0 time1)).take
          ((a :: b :: l2).length / 2)) with
    | none => rfl
    | some lt =>
      cases buildBVHWith sortImpl time0 time1
          ((sortImpl (a :: b :: l2) (largestAxis (a :: b :: l2) time0 time1)).drop
            ((a :: b :: l2).length / 2)).length
          ((sortImpl (a :: b :: l2) (largestAxis (a :: b :: l2) time0 time1)).drop
            ((a :: b :: l2).length / 2)) with
      | none => rfl
      | some rt => rfl

/-- Counterexample to C5 as frozen: the two objects of the concrete scene
have tied `box_compare` keys on the chosen axis, and the tie-reversing sort
is also a permutation of the input ordered by the comparator — everything
`sort_unstable_by` guarantees — yet construction under it produces the
leaves (observed through their boxes) in the opposite order to the stable
construction, so a stable tie order is not a property of the program. -/
theorem bvh_build_split_tie_counterexample :
    List.Pairwise (boxCompareLe 0 1 (largestAxis tieSceneW 0 1))
      (tieRevSort 0 1 tieSceneW (largestAxis tieSceneW 0 1)) ∧
    (tieRevSort 0 1 tieSceneW (largestAxis tieSceneW 0 1)).Perm tieSceneW ∧
    (buildBVHWith (tieRevSort 0 1) 0 1 tieSceneW.length tieSceneW).map
        (fun b => b.toList.map (fun o => o.bbox 0 1)) ≠
      (BVH.new tieSceneW 0 1).map
        (fun b => b.toList.map (fun o => o.bbox 0 1)) := by
  have haxis : largestAxis tieSceneW 0 1 = 0 := by
    norm_num [largestAxis, axis_range, tieSceneW, objTieA, objTieB, planeObj,
      boxTieA, boxTieB, f32MAX, Vec3.get]
  have hsort : tieRevSort 0 1 tieSceneW 0 = [objTieB, objTieA] := by
    norm_num [tieRevSort, tieSceneW, List.insertionSort, List.orderedInsert,
      boxCompareLt, box_compare_key, objTieA, objTieB, planeObj, boxTieA, boxTieB,
      Vec3.get]
  refine ⟨?_, ?_, ?_⟩
  · rw [haxis, hsort]
    norm_num [List.pairwise_cons, boxCompareLe, box_compare_key, objTieA, objTieB,
      planeObj, boxTieA, boxTieB, Vec3.get]
  · rw [haxis, hsort]
    exact List.Perm.swap objTieA objTieB []
  · have h1 : (buildBVHWith (tieRevSort 0 1) 0 1 tieSceneW.length tieSceneW).map
        (fun b => b.toList.map (fun o => o.bbox 0 1)) =
        some [some boxTieB, some boxTieA] := by
      norm_num [buildBVHWith, tieRevSort, tieSceneW, List.insertionSort,
        List.orderedInsert, boxCompareLt, box_compare_key, objTieA, objTieB,
        planeObj, boxTieA, boxTieB, largestAxis, axis_range, f32MAX, Vec3.get,
        BVH.toList]
    have h2 : (BVH.new tieSceneW 0 1).map
        (fun b => b.toList.map (fun o => o.bbox 0 1)) =
        some [some boxTieA, some boxTieB] := by
      norm_num [BVH.new, buildBVH, buildBVHWith, tieSceneW, List.insertionSort,
        List.orderedInsert, boxCompareLe, box_compare_key, objTieA, objTieB,
        planeObj, boxTieA, boxTieB, largestAxis, axis_range, f32MAX, Vec3.get,
        BVH.toList]
    rw [h1, h2]
    intro hcon
    norm_num [boxTieA, boxTieB] at hcon

/-- C6: the hit query of a branch node queries the left subtree with the
incoming upper bound, shrinks the bound to the left hit distance when the
left query hits, queries the right subtree under the shrunk bound, and
returns the right result when present, otherwise the left result, otherwise
no hit; under the collaborator contract the right result is strictly closer
than the left hit. -/
theorem bvh_branch_hit_order (lt rt : BVH) (bx : AABB) (time0 time1 : ℚ)
    (hlr : ∀ o ∈ rt.toList, LawfulObject o time0 time1)
    (r : Ray) (t_min t_max : ℚ) :
    ((BVH.branch lt rt bx).hit r t_min t_max =
      if bx.hit r t_min t_max then
        match rt.hit r t_min (match lt.hit r t_min t_max with
          | some l => l.t
          | none => t_max) with
        | some hr => some hr
        | none => lt.hit r t_min t_max
      else none) ∧
    ∀ hl hr, lt.hit r t_min t_max = some hl → rt.hit r t_min hl.t = some hr →
      hr.t < hl.t := by
  constructor
  · simp only [BVH.hit]
    cases lt.hit r t_min t_max with
    | none =>
      cases rt.hit r t_min t_max with
      | none => rfl
      | some hr1 => rfl
    | some hl1 =>
      cases rt.hit r t_min hl1.t with
      | none => rfl
      | some hr1 => rfl
  · intro hl hr hhl hhr
    exact (bvh_hit_range rt hlr r t_min hl.t hr hhr).2

/-- C8: a constructed tree satisfies the structural box invariant (a leaf
caches the box of its object, a branch caches the surrounding box of its
children), and the cached box of every node contains the cached box of each
of its descendants. -/
theorem bvh_box_invariant (l : List Object) (time0 time1 : ℚ) (b : BVH)
    (hb : BVH.new l time0 time1 = some b) :
    b.WellBoxed time0 time1 ∧
    ∀ n ∈ b.descendants, ∀ d ∈ n.descendants, n.bbox.contains d.bbox := by
  have hw := buildBVH_wellBoxed time0 time1 _ l b hb
  exact ⟨hw, fun n hn d hd =>
    wellBoxed_contains_descendants n (wellBoxed_descendants b hw n hn) d hd⟩

/-- Witness for C1 on the concrete two-object scene: the tree query agrees
with the individual-test minimum, which is the nearer hit at distance 2. -/
theorem bvh_hit_eq_closest_witness :
    (bvhW.hit rayW (1/1000) 100).map HitRecord.t = closestT sceneW rayW (1/1000) 100 ∧
    closestT sceneW rayW (1/1000) 100 = some 2 := by
  constructor
  · exact (bvh_hit_eq_closest sceneW 0 1 bvhW (Option.some_get _).symm lawful_sceneW
      rayW (1/1000) 100).1
  · norm_num [closestT, listMinQ, sceneW, objNear, objFar, planeObj, rayW, Ray.at,
      AABB.memBox, boxNear, boxFar, List.filterMap_cons, min_def]

/-- Witness for the amended C5 on the concrete two-object scene, with the
stable conforming sort behavior: construction equals the sort-split-recurse
composition. -/
theorem bvh_build_split_unstable_witness :
    buildBVHWith (fun l axis => l.insertionSort (boxCompareLe 0 1 axis)) 0 1
        sceneW.length sceneW =
      Option.bind (buildBVHWith (fun l axis => l.insertionSort (boxCompareLe 0 1 axis)) 0 1
          ((sceneW.insertionSort (boxCompareLe 0 1 (largestAxis sceneW 0 1))).take
            (sceneW.length / 2)).length
          ((sceneW.insertionSort (boxCompareLe 0 1 (largestAxis sceneW 0 1))).take
            (sceneW.length / 2)))
        (fun left =>
          Option.bind (buildBVHWith (fun l axis => l.insertionSort (boxCompareLe 0 1 axis)) 0 1
              ((sceneW.insertionSort (boxCompareLe 0 1 (largestAxis sceneW 0 1))).drop
                (sceneW.length / 2)).length
              ((sceneW.insertionSort (boxCompareLe 0 1 (largestAxis sceneW 0 1))).drop
                (sceneW.length / 2)))
            (fun right =>
              some (BVH.branch left right
                (AABB.surrounding_box left.bbox right.bbox)))) :=
  (bvh_build_split_unstable sceneW 0 1 _ (stableSort_conforms 0 1)
    (fun o ho => (lawful_sceneW o ho).bounded) (by simp [sceneW])).2.2.2.2.2.2.2

/-- Witness for C6 on a concrete branch: the near leaf hit shrinks the bound,
the far leaf is pruned under the shrunk bound, and the left hit is returned. -/
theorem bvh_branch_hit_order_witness :
    branchW.hit rayW (1/1000) 100 = some ⟨⟨2, 0, 0⟩, ⟨-1, 0, 0⟩, 2, 0, true⟩ := by
  have h := (bvh_branch_hit_order (BVH.leaf objNear boxNear) (BVH.leaf objFar boxFar)
    (AABB.surrounding_box boxNear boxFar) 0 1
    (by
      intro o ho
      simp only [BVH.toList] at ho
      obtain rfl := List.mem_singleton.mp ho
      exact lawful_planeObj 5 ⟨-1, 0, 0⟩ boxFar 1 0 1)
    rayW (1/1000) 100).1
  rw [show branchW = BVH.branch (BVH.leaf objNear boxNear) (BVH.leaf objFar boxFar)
    (AABB.surrounding_box boxNear boxFar) from rfl, h]
  norm_num [BVH.hit, AABB.hit, clipSlab, AABB.surrounding_box, boxNear, boxFar,
    objNear, objFar, planeObj, rayW, Ray.at, AABB.memBox, Vec3.get, min_def, max_def]

/-- Witness for C8 on the concrete two-object scene: the constructed tree is
well-boxed. -/
theorem bvh_box_invariant_witness : bvhW.WellBoxed 0 1 :=
  (bvh_box_invariant sceneW 0 1 bvhW (Option.some_get _).symm).1

/-- The zero color is non-negative. -/
theorem Vec3.nonneg_zero : (Vec3.zero).nonneg :=
  ⟨le_refl 0, le_refl 0, le_refl 0⟩

/-- Sums of non-negative colors are non-negative. -/
theorem Vec3.nonneg_add {a b : Vec3} (ha : a.nonneg) (hb : b.nonneg) : (a + b).nonneg :=
  ⟨add_nonneg ha.1 hb.1, add_nonneg ha.2.1 hb.2.1, add_nonneg ha.2.2 hb.2.2⟩

/-- Hadamard products of non-negative colors are non-negative. -/
theorem Vec3.nonneg_hmul {a b : Vec3} (ha : a.nonneg) (hb : b.nonneg) : (a * b).nonneg :=
  ⟨mul_nonneg ha.1 hb.1, mul_nonneg ha.2.1 hb.2.1, mul_nonneg ha.2.2 hb.2.2⟩

/-- Scaling a non-negative color by a non-negative scalar stays non-negative. -/
theorem Vec3.nonneg_smul {a : Vec3} {s : ℚ} (ha : a.nonneg) (hs : 0 ≤ s) :
    (a * s).nonneg :=
  ⟨mul_nonneg ha.1 hs, mul_nonneg ha.2.1 hs, mul_nonneg ha.2.2 hs⟩

/-- Dividing a non-negative color by a non-negative scalar stays non-negative
(division by zero is zero in the exact-arithmetic model). -/
theorem Vec3.nonneg_sdiv {a : Vec3} {s : ℚ} (ha : a.nonneg) (hs : 0 ≤ s) :
    (a / s).nonneg :=
  ⟨div_nonneg ha.1 hs, div_nonneg ha.2.1 hs, div_nonneg ha.2.2 hs⟩

/-- The density chosen by the Scatter branch evaluates non-negatively whenever
the collaborator densities do. -/
theorem lightChoicePDF_value_nonneg (env : Env) (sel : List Object → Option Object)
    (lights : List Object) (p n : Vec3) (rpdf : PDFImpl)
    (hr : ∀ d, 0 ≤ rpdf.value d)
    (hc : ∀ nn d, 0 ≤ (env.cosinePDF nn).value d)
    (hh : ∀ pp o d, 0 ≤ (env.hittablePDF pp o).value d) (d : Vec3) :
    0 ≤ (lightChoicePDF env sel lights p n rpdf).value d := by
  unfold lightChoicePDF
  cases hif : (if lights.length = 1 then lights.head? else sel lights) with
  | none => exact hc n d
  | some x =>
    simp only [mixturePDF]
    have h1 := hh p x d
    have h2 := hr d
    have hsum : 0 ≤ (env.hittablePDF p x).value d + rpdf.value d := add_nonneg h1 h2
    exact div_nonneg hsum (by norm_num)

/-- The recursive estimator returns a non-negative color at every fuel. -/
theorem rayColorAux_nonneg (env : Env) (background : Color)
    (sel : List Object → Option Object) (h : NonNegEnv env background)
    (lights : List Object) :
    ∀ fuel ray, (rayColorAux env sel background lights fuel ray).nonneg := by
  intro fuel
  induction fuel with
  | zero => intro ray; exact Vec3.nonneg_zero
  | succ n ih =>
    intro ray
    simp only [rayColorAux]
    cases hw : env.worldHit ray (1 / 1000) with
    | none => exact h.background_nn
    | some hit =>
      dsimp only
      cases hs : (env.mats hit.matId).scatter ray hit with
      | none => exact h.emitted_nn hit.matId ray hit
      | some refl =>
        cases refl with
        | Specular sray att =>
          dsimp only
          exact Vec3.nonneg_hmul (h.specular_att_nn hit.matId ray hit sray att hs) (ih sray)
        | Scatter rpdf att =>
          dsimp only
          refine Vec3.nonneg_add (h.emitted_nn hit.matId ray hit) ?_
          refine Vec3.nonneg_sdiv (Vec3.nonneg_hmul (Vec3.nonneg_smul
            (h.scatter_att_nn hit.matId ray hit rpdf att hs)
            (h.spdf_nn hit.matId ray hit _)) (ih _)) ?_
          exact lightChoicePDF_value_nonneg env sel lights hit.p hit.normal rpdf
            (h.scatter_pdf_nn hit.matId ray hit rpdf att · hs) h.cosine_nn h.hittable_nn _

/-- C4: under the collaborator non-negativity contracts, `ray_color` never
returns a color with a negative channel, and at depth at most zero it returns
exactly the zero color. -/
theorem ray_color_nonneg_black (env : Env) (background : Color)
    (h : NonNegEnv env background) (sel : List Object → Option Object)
    (lights : List Object) (ray : Ray) (depth : ℤ) :
    (ray_color env sel ray background lights depth).nonneg ∧
    (depth ≤ 0 → ray_color env sel ray background lights depth = Vec3.zero) := by
  constructor
  · exact rayColorAux_nonneg env background sel h lights depth.toNat ray
  · intro hd
    unfold ray_color
    rw [show depth.toNat = 0 by omega]
    rfl

/-- C7: with positive depth, a scene hit and a diffuse scattering outcome,
`ray_color` returns the divided Monte Carlo estimator built on the density
chosen by the Scatter branch; that density is the 50/50 mixture with the
light-directed density toward the single light when the light list has
exactly one member, toward some chooser-selected member when it has more than
one, and the cosine density around the surface normal when it is empty. -/
theorem ray_color_scatter_light_selection (env : Env)
    (sel : List Object → Option Object) (hsel : LawfulChoose sel)
    (background : Color) (lights : List Object) (ray : Ray) (depth : ℤ)
    (hd : 0 < depth) (hit : HitRecord) (rpdf : PDFImpl) (att : Color)
    (hw : env.worldHit ray (1 / 1000) = some hit)
    (hs : (env.mats hit.matId).scatter ray hit = some (.Scatter rpdf att)) :
    (ray_color env sel ray background lights depth =
      (env.mats hit.matId).emitted ray hit +
        att * (env.mats hit.matId).scattering_pdf ray hit
            (Ray.mk hit.p
              (lightChoicePDF env sel lights hit.p hit.normal rpdf).generate ray.time) *
          ray_color env sel
            (Ray.mk hit.p
              (lightChoicePDF env sel lights hit.p hit.normal rpdf).generate ray.time)
            background lights (depth - 1) /
          (lightChoicePDF env sel lights hit.p hit.normal rpdf).value
            (Ray.mk hit.p
              (lightChoicePDF env sel lights hit.p hit.normal rpdf).generate
              ray.time).dir) ∧
    (∀ x, lights = [x] →
      lightChoicePDF env sel lights hit.p hit.normal rpdf =
        mixturePDF (env.hittablePDF hit.p x) rpdf env.coin) ∧
    (1 < lights.length →
      ∃ x ∈ lights, lightChoicePDF env sel lights hit.p hit.normal rpdf =
        mixturePDF (env.hittablePDF hit.p x) rpdf env.coin) ∧
    (lights = [] →
      lightChoicePDF env sel lights hit.p hit.normal rpdf = env.cosinePDF hit.normal) := by
  refine ⟨?_, ?_, ?_, ?_⟩
  · unfold ray_color
    rw [show depth.toNat = (depth - 1).toNat + 1 by omega]
    simp only [rayColorAux]
    rw [hw]
    dsimp only
    rw [hs]
  · intro x hx
    subst hx
    unfold lightChoicePDF
    rfl
  · intro hlen
    unfold lightChoicePDF
    rw [if_neg (by omega)]
    have hne : lights ≠ [] := by
      intro hnil
      rw [hnil] at hlen
      simp at hlen
    obtain ⟨x, hx⟩ := Option.isSome_iff_exists.mp (hsel.nonempty_some lights hne)
    rw [hx]
    exact ⟨x, hsel.mem lights x hx, rfl⟩
  · intro hx
    subst hx
    unfold lightChoicePDF
    rw [if_neg (by simp), hsel.empty_none]

/-- The estimator never consults the chooser when the light list has at most
one element. -/
theorem rayColorAux_sel_irrel (env : Env) (background : Color)
    (lights : List Object) (hlen : lights.length ≤ 1)
    (sel1 sel2 : List Object → Option Object)
    (h1 : sel1 [] = none) (h2 : sel2 [] = none) :
    ∀ fuel ray, rayColorAux env sel1 background lights fuel ray =
      rayColorAux env sel2 background lights fuel ray := by
  intro fuel
  induction fuel with
  | zero => intro ray; rfl
  | succ n ih =>
    intro ray
    simp only [rayColorAux]
    cases hw : env.worldHit ray (1 / 1000) with
    | none => rfl
    | some hit =>
      dsimp only
      cases hs : (env.mats hit.matId).scatter ray hit with
      | none => rfl
      | some refl =>
        cases refl with
        | Specular sray att =>
          dsimp only
          rw [ih sray]
        | Scatter rpdf att =>
          dsimp only
          have hlp : lightChoicePDF env sel1 lights hit.p hit.normal rpdf =
              lightChoicePDF env sel2 lights hit.p hit.normal rpdf := by
            unfold lightChoicePDF
            by_cases hl1 : lights.length = 1
            · rw [if_pos hl1, if_pos hl1]
            · have hnil : lights = [] := List.length_eq_zero.mp (by omega)
              subst hnil
              rw [if_neg hl1, if_neg hl1, h1, h2]
          rw [hlp, ih]

/-- C10: when the light list has at most one element, the Scatter branch
takes the single light directly or the empty fallback, and the result of
`ray_color` does not depend on the random light chooser at all. -/
theorem ray_color_det_le_one_light (env : Env) (background : Color)
    (lights : List Object) (hlen : lights.length ≤ 1)
    (sel1 sel2 : List Object → Option Object)
    (h1 : sel1 [] = none) (h2 : sel2 [] = none) (ray : Ray) (depth : ℤ) :
    ray_color env sel1 ray background lights depth =
      ray_color env sel2 ray background lights depth :=
  rayColorAux_sel_irrel env background lights hlen sel1 sel2 h1 h2 depth.toNat ray

/-- The framebuffer cell written by a fold of row writes: the row content if
the row index occurs in the processed order, the initial content otherwise. -/
theorem runSchedule_apply (cfg : RenderCfg) :
    ∀ (order : List ℕ) (image : ℕ → Option (List Color)) (y : ℕ),
      order.foldl
        (fun image y => fun yq => if yq = y then some (renderRow cfg y) else image yq)
        image y
      = if y ∈ order then some (renderRow cfg y) else image y := by
  intro order
  induction order with
  | nil => intro image y; simp
  | cons a as ih =>
    intro image y
    rw [List.foldl_cons, ih]
    by_cases hy : y ∈ as
    · rw [if_pos hy, if_pos (List.mem_cons.mpr (Or.inr hy))]
    · rw [if_neg hy]
      by_cases hya : y = a
      · subst hya
        rw [if_pos rfl, if_pos (List.mem_cons_self y as)]
      · rw [if_neg hya, if_neg (by
          intro hmem
          rcases List.mem_cons.mp hmem with h | h
          · exact hya h
          · exact hy h)]

/-- C2: under deterministic collaborators, the framebuffer produced by the
row-parallel schedule does not depend on the order in which the rows execute,
and neither does the emitted image; a rerun of the same configuration yields
a bit-identical result. -/
theorem scheduler_deterministic (cfg : RenderCfg) (o1 o2 : List ℕ)
    (h1 : o1.Perm (List.range cfg.ny)) (h2 : o2.Perm (List.range cfg.ny)) :
    runSchedule cfg o1 = runSchedule cfg o2 ∧
    outputImage cfg o1 = outputImage cfg o2 := by
  have hmain : runSchedule cfg o1 = runSchedule cfg o2 := by
    funext y
    unfold runSchedule
    rw [runSchedule_apply, runSchedule_apply]
    exact if_congr (by rw [h1.mem_iff, h2.mem_iff]) rfl rfl
  exact ⟨hmain, by unfold outputImage; rw [hmain]⟩

/-- The all-miss environment satisfies the non-negativity contracts. -/
theorem nonnegEnv_missW : NonNegEnv envMissW bgW := by
  constructor
  · exact ⟨by norm_num [bgW], by norm_num [bgW], by norm_num [bgW]⟩
  · intro i r h
    exact ⟨by norm_num [envMissW, matEmitW], by norm_num [envMissW, matEmitW],
      by norm_num [envMissW, matEmitW]⟩
  · intro i r h sray att hs
    simp [envMissW, matEmitW] at hs
  · intro i r h p att hs
    simp [envMissW, matEmitW] at hs
  · intro i r h p att d hs
    simp [envMissW, matEmitW] at hs
  · intro i r h s
    simp [envMissW, matEmitW]
  · intro n d
    simp [envMissW]
  · intro p o d
    simp [envMissW, pdfW]

/-- The head chooser satisfies the choose contract. -/
theorem lawful_selHead : LawfulChoose selHead := by
  constructor
  · rfl
  · intro l x hx
    cases l with
    | nil => cases hx
    | cons a as =>
      injection hx with hx2
      subst hx2
      exact List.mem_cons_self a as
  · intro l hl
    cases l with
    | nil => exact absurd rfl hl
    | cons a as => rfl

/-- Witness for C4: a concrete all-miss render is non-negative at depth 3 and
exactly black at depth -2. -/
theorem ray_color_nonneg_black_witness :
    (ray_color envMissW selHead rayW bgW [] 3).nonneg ∧
    ray_color envMissW selHead rayW bgW [] (-2) = Vec3.zero :=
  ⟨(ray_color_nonneg_black envMissW bgW nonnegEnv_missW selHead [] rayW 3).1,
   (ray_color_nonneg_black envMissW bgW nonnegEnv_missW selHead [] rayW (-2)).2
     (by norm_num)⟩

/-- Witness for C7: in a concrete scattering environment with an empty light
list, the chosen density is the cosine density around the hit normal. -/
theorem ray_color_scatter_light_selection_witness :
    lightChoicePDF envScatterW selHead [] hitW.p hitW.normal pdfW =
      envScatterW.cosinePDF hitW.normal :=
  (ray_color_scatter_light_selection envScatterW selHead lawful_selHead bgW [] rayW 1
    (by norm_num) hitW pdfW ⟨1, 1, 1⟩ rfl rfl).2.2.2 rfl

/-- Witness for C10: with no lights, two different choosers give the same
concrete render. -/
theorem ray_color_det_le_one_light_witness :
    ray_color envMissW selHead rayW bgW [] 2 =
      ray_color envMissW selNone rayW bgW [] 2 :=
  ray_color_det_le_one_light envMissW bgW [] (by norm_num) selHead selNone rfl rfl rayW 2

/-- Witness for C2: on the tiny two-row configuration the two row orders give
the same framebuffer. -/
theorem scheduler_deterministic_witness :
    runSchedule cfgW [0, 1] = runSchedule cfgW [1, 0] :=
  (scheduler_deterministic cfgW [0, 1] [1, 0] (by decide) (by decide)).1
